import Mathlib

/-
Verification of the dependency-graph task mesh scheduler
(src/connectors/task_mesh_orchestrator.py).

The Python module is embedded shallowly: the mutable orchestrator state
becomes an explicit record that is threaded through pure transition
functions, Python dicts become insertion-ordered association lists, Python
sets become duplicate-free string lists, and the asynchronous gather of a
wave becomes a left fold over the dispatched ids (each task touches only
its own entry and the add-only result sets, so the final state is the same
for every interleaving).  A task handler is represented by the outcome of
its single invocation: an Except value that either returns a result string
or raises an error message; a missing handler is None in the source and
none here.  Timestamps are modeled by a logical clock that advances at
every timestamp assignment.  The semaphore-bounded dispatch of
_execute_parallel_group is additionally given a small-step interleaving
semantics (GatherStep) to state the concurrency-ceiling property.
-/

namespace TaskMesh

/-- Status of a task in the mesh, from the TaskStatus enum of the source. -/
inductive TaskStatus where
  | pending
  | running
  | completed
  | failed
  | blocked
  | cancelled
deriving DecidableEq, Repr

/-- Implementation phases, from the TaskPhase enum of the source. -/
inductive TaskPhase where
  | foundation
  | coreImpl
  | advanced
  | integration
deriving DecidableEq, Repr

/-- Enumeration order of the TaskPhase enum, used by the phase loop of
_calculate_execution_order. -/
def TaskPhase.all : List TaskPhase :=
  [TaskPhase.foundation, TaskPhase.coreImpl, TaskPhase.advanced, TaskPhase.integration]

/-- Position of a phase in the enumeration order. -/
def TaskPhase.idx : TaskPhase → Nat
  | TaskPhase.foundation => 0
  | TaskPhase.coreImpl => 1
  | TaskPhase.advanced => 2
  | TaskPhase.integration => 3

deriving instance DecidableEq for Except

/-- Task definition for the mesh, from the Task dataclass of the source.
The handler field holds the outcome of invoking the handler: ok with a
result payload, or error with the message of the raised exception. -/
structure Task where
  id : String
  name : String
  phase : TaskPhase
  dependencies : List String := []
  status : TaskStatus := TaskStatus.pending
  handler : Option (Except String String) := none
  result : Option String := none
  error : Option String := none
  startedAt : Option Nat := none
  completedAt : Option Nat := none
deriving DecidableEq, Repr

/-- State of the entire task mesh, from the TaskMeshState dataclass.  The
tasks dict becomes an insertion-ordered list; the completed, failed and
running sets become duplicate-free lists; clock is the logical time used
for the started and completed timestamps. -/
structure TaskMeshState where
  tasks : List Task
  completedTasks : List String := []
  failedTasks : List String := []
  runningTasks : List String := []
  executionOrder : List (List String) := []
  clock : Nat := 0
deriving Repr

/-- Lookup of a task by id, the dict access tasks[task_id]. -/
def findTask (reg : List Task) (tid : String) : Option Task :=
  reg.find? (fun t => t.id = tid)

/-- Ids of the registered tasks in insertion order. -/
def taskIds (reg : List Task) : List String :=
  reg.map Task.id

/-- Dependency list of a registered task (empty when the id is absent). -/
def depsOf (reg : List Task) (tid : String) : List String :=
  ((findTask reg tid).map Task.dependencies).getD []

/-- Status of a registered task, none when the id is absent. -/
def statusOf (st : TaskMeshState) (tid : String) : Option TaskStatus :=
  (findTask st.tasks tid).map Task.status

/-- Pointwise update of the task stored under an id, the dict item
assignment tasks[tid] = f tasks[tid]. -/
def updateTask (reg : List Task) (tid : String) (f : Task → Task) : List Task :=
  reg.map (fun t => if t.id = tid then f t else t)

/-- Record update of one task inside the mesh state. -/
def TaskMeshState.modifyTask (st : TaskMeshState) (tid : String) (f : Task → Task) :
    TaskMeshState :=
  { st with tasks := updateTask st.tasks tid f }

/-- Addition of an id to a Python set modeled as a duplicate-free list. -/
def addId (s : List String) (tid : String) : List String :=
  if tid ∈ s then s else s ++ [tid]

/-- Removal of an id from a Python set (set.discard). -/
def removeId (s : List String) (tid : String) : List String :=
  s.filter (fun x => x ≠ tid)

/-- The method _add_task: the dict assignment tasks[task.id] = task, which
overwrites in place when the id is already present and appends otherwise. -/
def addTask (reg : List Task) (t : Task) : List Task :=
  if t.id ∈ taskIds reg then updateTask reg t.id (fun _ => t) else reg ++ [t]

/-- Ids of the tasks of one phase in insertion order, the phases dict of
_calculate_execution_order. -/
def phaseIds (reg : List Task) (p : TaskPhase) : List String :=
  (reg.filter (fun t => decide (t.phase = p))).map Task.id

/-- The in_degree dict right after the graph-building loop of
_topological_sort: one unit per dependency occurrence that is also a member
of the phase-scoped id set. -/
def inDegreeInit (reg : List Task) (ids : List String) (v : String) : Int :=
  ((depsOf reg v).countP (fun d => decide (d ∈ ids)) : Nat)

/-- The adj_list dict of _topological_sort: the dependents of u, one entry
per occurrence of u in a dependency list, in scope-iteration order. -/
def adjListOf (reg : List Task) (ids : List String) (u : String) : List String :=
  ids.flatMap (fun tid => ((depsOf reg tid).filter (fun d => decide (d = u))).map (fun _ => tid))

/-- One neighbor visit of the inner loop of _topological_sort: decrement
the in-degree of the neighbor and enqueue it when the new value is zero. -/
def stepNeighbor (st : (String → Int) × List String) (n : String) :
    (String → Int) × List String :=
  let deg := st.1
  let d := deg n - 1
  (fun x => if x = n then d else deg x, if d = 0 then st.2 ++ [n] else st.2)

/-- Processing of one emitted group: visit the adjacency list of every
member, starting from an empty next queue. -/
def processGroup (adj : String → List String) (deg : String → Int)
    (group : List String) : (String → Int) × List String :=
  group.foldl (fun st tid => (adj tid).foldl stepNeighbor st) (deg, [])

/-- The while loop of _topological_sort, with fuel for termination; the
wrapper supplies more fuel than the loop can ever consume. -/
def kahnAux (adj : String → List String) :
    Nat → (String → Int) → List String → List (List String)
  | 0, _, _ => []
  | fuel + 1, deg, queue =>
    if queue.isEmpty then []
    else
      let next := processGroup adj deg queue
      queue :: kahnAux adj fuel next.1 next.2

/-- The method _topological_sort restricted to a scoped id list: build the
in-degree map and adjacency lists, seed the queue with the zero in-degree
ids in scope order, and run the wave loop. -/
def topologicalSort (reg : List Task) (ids : List String) : List (List String) :=
  let deg := inDegreeInit reg ids
  let queue := ids.filter (fun v => decide (deg v = 0))
  kahnAux (adjListOf reg ids) (ids.length + 1) deg queue

/-- The method _calculate_execution_order: concatenation of the per-phase
wave lists, phases taken in enumeration order. -/
def calculateExecutionOrder (reg : List Task) : List (List String) :=
  TaskPhase.all.flatMap (fun p => topologicalSort reg (phaseIds reg p))

/-- Mesh state as built by the constructor: registered tasks plus the
execution order computed once. -/
def initState (reg : List Task) : TaskMeshState :=
  { tasks := reg, executionOrder := calculateExecutionOrder reg }

/-- First half of _execute_task, up to the handler invocation: status
becomes running, started_at is recorded, the id joins the running set. -/
def executeTaskStart (st : TaskMeshState) (tid : String) : TaskMeshState :=
  let st2 := st.modifyTask tid
    (fun t => { t with status := TaskStatus.running, startedAt := some st.clock })
  { st2 with runningTasks := addId st2.runningTasks tid, clock := st2.clock + 1 }

/-- Outcome of the handler invocation inside _execute_task: a present
handler yields its outcome; a missing handler simulates execution and
returns the placeholder result string. -/
def handlerOutcome (t : Task) : Except String String :=
  match t.handler with
  | some o => o
  | none => Except.ok ("Completed: " ++ t.name)

/-- Second half of _execute_task: on a normal handler return record the
result and mark completed; on a raised error record the message and mark
failed; either way set completed_at and leave the running set. -/
def executeTaskFinish (st : TaskMeshState) (tid : String) : TaskMeshState :=
  match findTask st.tasks tid with
  | none => st
  | some t =>
    match handlerOutcome t with
    | Except.ok r =>
      let st2 := st.modifyTask tid (fun u =>
        { u with status := TaskStatus.completed, result := some r,
                 completedAt := some st.clock })
      { st2 with completedTasks := addId st2.completedTasks tid,
                 runningTasks := removeId st2.runningTasks tid,
                 clock := st2.clock + 1 }
    | Except.error e =>
      let st2 := st.modifyTask tid (fun u =>
        { u with status := TaskStatus.failed, error := some e,
                 completedAt := some st.clock })
      { st2 with failedTasks := addId st2.failedTasks tid,
                 runningTasks := removeId st2.runningTasks tid,
                 clock := st2.clock + 1 }

/-- The method _execute_task as one state transformer. -/
def executeTask (st : TaskMeshState) (tid : String) : TaskMeshState :=
  executeTaskFinish (executeTaskStart st tid) tid

/-- Marking of one task as blocked, the status assignment used both in the
decision loop and at the wave boundary. -/
def blockTask (u : Task) : Task :=
  { u with status := TaskStatus.blocked }

/-- One iteration of the decision loop of _execute_parallel_group: a member
with an already failed dependency is marked blocked, an already completed
member is skipped, every other member is collected for dispatch. -/
def dispatchStep (acc : TaskMeshState × List String) (tid : String) :
    TaskMeshState × List String :=
  match findTask acc.1.tasks tid with
  | none => acc
  | some t =>
    if t.dependencies.any (fun d => decide (d ∈ acc.1.failedTasks)) then
      (acc.1.modifyTask tid blockTask, acc.2)
    else if t.status = TaskStatus.completed then acc
    else (acc.1, acc.2 ++ [tid])

/-- Decision loop of _execute_parallel_group over a whole group.  The
coroutines are only collected here; none has run yet when the decisions
are taken. -/
def dispatchDecision (st : TaskMeshState) (group : List String) :
    TaskMeshState × List String :=
  group.foldl dispatchStep (st, [])

/-- The method _execute_parallel_group: take the dispatch decisions, then
run every dispatched task to its terminal state. -/
def executeParallelGroup (st : TaskMeshState) (group : List String) : TaskMeshState :=
  let d := dispatchDecision st group
  d.2.foldl executeTask d.1

/-- The method _get_blocked_tasks: ids of the still pending tasks having
some dependency in the failed set.  One pass over the failed set only. -/
def getBlockedTasks (st : TaskMeshState) : List String :=
  (st.tasks.filter (fun t =>
    decide (t.status = TaskStatus.pending) &&
      t.dependencies.any (fun d => decide (d ∈ st.failedTasks)))).map Task.id

/-- One iteration of the group loop of execute: run the wave, then, when
any task has failed, mark the tasks returned by _get_blocked_tasks as
blocked. -/
def waveStep (st : TaskMeshState) (group : List String) : TaskMeshState :=
  let st2 := executeParallelGroup st group
  if st2.failedTasks.isEmpty then st2
  else
    (getBlockedTasks st2).foldl (fun s tid => s.modifyTask tid blockTask) st2

/-- Execution summary, the counting part of the dict returned by execute. -/
structure Summary where
  totalTasks : Nat
  completed : Nat
  failed : Nat
  blocked : Nat
deriving DecidableEq, Repr

/-- The method execute: process every group of the execution order in
sequence and aggregate the final counts. -/
def execute (st : TaskMeshState) : TaskMeshState × Summary :=
  let final := st.executionOrder.foldl waveStep st
  (final,
    { totalTasks := final.tasks.length,
      completed := final.completedTasks.length,
      failed := final.failedTasks.length,
      blocked := (final.tasks.filter (fun t => decide (t.status = TaskStatus.blocked))).length })

/-- State of the run after the first k waves of the execution order. -/
def runUpTo (st : TaskMeshState) (k : Nat) : TaskMeshState :=
  (st.executionOrder.take k).foldl waveStep st

/-- Number of tasks still pending in a mesh state. -/
def pendingCount (st : TaskMeshState) : Nat :=
  (st.tasks.filter (fun t => decide (t.status = TaskStatus.pending))).length

/-- Acyclicity of the scoped dependency relation, expressed by a ranking
that strictly decreases along in-scope dependency edges. -/
def ScopedRank (reg : List Task) (ids : List String) (r : String → Nat) : Prop :=
  ∀ v ∈ ids, ∀ d ∈ depsOf reg v, d ∈ ids → r d < r v

/-- Acyclicity of the whole registered dependency graph, expressed by a
ranking that strictly decreases along every registered dependency edge. -/
def RankedAcyclic (reg : List Task) (r : String → Nat) : Prop :=
  ∀ t ∈ reg, ∀ d ∈ t.dependencies, d ∈ taskIds reg → r d < r t.id

/-- Abstract interleaving state of the semaphore-bounded gather of
_execute_parallel_group: available semaphore permits, coroutines not yet
admitted, coroutines between acquire and release, finished coroutines. -/
structure GatherState where
  semAvailable : Nat
  waitingCount : Nat
  runningCount : Nat
  doneCount : Nat
deriving DecidableEq, Repr

/-- Gather state at the start of a wave: the semaphore is created with
max_parallel_tasks permits and every bounded task is waiting. -/
def initGather (maxParallel n : Nat) : GatherState :=
  { semAvailable := maxParallel, waitingCount := n, runningCount := 0, doneCount := 0 }

/-- Interleaving steps of the bounded gather: a waiting coroutine may
acquire a permit and start running only when a permit is available; a
running coroutine may finish and release its permit. -/
inductive GatherStep : GatherState → GatherState → Prop where
  | acquire {s : GatherState} (hs : 0 < s.semAvailable) (hw : 0 < s.waitingCount) :
      GatherStep s
        { semAvailable := s.semAvailable - 1, waitingCount := s.waitingCount - 1,
          runningCount := s.runningCount + 1, doneCount := s.doneCount }
  | release {s : GatherState} (hr : 0 < s.runningCount) :
      GatherStep s
        { semAvailable := s.semAvailable + 1, waitingCount := s.waitingCount,
          runningCount := s.runningCount - 1, doneCount := s.doneCount + 1 }

/-- Residual in-degree: dependency occurrences that are in scope and not
yet emitted. -/
def rdeg (reg : List Task) (ids done : List String) (v : String) : Nat :=
  (depsOf reg v).countP (fun d => decide (d ∈ ids) && !decide (d ∈ done))

/-- Invariant tying the loop state of _topological_sort (in-degree map and
ready queue) to the list of already emitted ids. -/
structure KahnInv (reg : List Task) (ids done queue : List String)
    (deg : String → Int) : Prop where
  done_nodup : done.Nodup
  queue_nodup : queue.Nodup
  done_sub : ∀ v ∈ done, v ∈ ids
  queue_sub : ∀ v ∈ queue, v ∈ ids
  disj : ∀ v ∈ queue, v ∉ done
  deg_eq : ∀ v ∈ ids, deg v = (rdeg reg ids done v : Nat)
  queue_char : ∀ v ∈ ids, v ∉ done → (v ∈ queue ↔ rdeg reg ids done v = 0)
  done_zero : ∀ v ∈ done, rdeg reg ids done v = 0

/-- Dependency of a task on an already failed task, the condition of the
decision loop and of _get_blocked_tasks. -/
def hasFailedDep (st : TaskMeshState) (tid : String) : Bool :=
  (depsOf st.tasks tid).any (fun d => decide (d ∈ st.failedTasks))

/-- Invariant of the run state after a prefix of the execution order has
been processed; done is the flattened list of processed waves. -/
structure RunInv (reg0 : List Task) (st : TaskMeshState) (done : List String) : Prop where
  ids_eq : taskIds st.tasks = taskIds reg0
  core : ∀ x t, findTask st.tasks x = some t →
    ∃ t0, findTask reg0 x = some t0 ∧ t.id = t0.id ∧ t.name = t0.name ∧
      t.phase = t0.phase ∧ t.dependencies = t0.dependencies ∧ t.handler = t0.handler
  completed_iff : ∀ x, x ∈ st.completedTasks ↔
    ∃ t, findTask st.tasks x = some t ∧ t.status = TaskStatus.completed
  failed_iff : ∀ x, x ∈ st.failedTasks ↔
    ∃ t, findTask st.tasks x = some t ∧ t.status = TaskStatus.failed
  completed_nodup : st.completedTasks.Nodup
  failed_nodup : st.failedTasks.Nodup
  running_nil : st.runningTasks = []
  done_status : ∀ x ∈ done, ∀ t, findTask st.tasks x = some t →
    t.status = TaskStatus.completed ∨ t.status = TaskStatus.failed ∨
      t.status = TaskStatus.blocked
  rest_status : ∀ x t, findTask st.tasks x = some t → x ∉ done →
    t.status = TaskStatus.pending ∨ t.status = TaskStatus.blocked
  blocked_dep : ∀ x t, findTask st.tasks x = some t → t.status = TaskStatus.blocked →
    ∃ d ∈ t.dependencies, d ∈ st.failedTasks
  completed_flags : ∀ x t, findTask st.tasks x = some t →
    t.status = TaskStatus.completed →
    t.completedAt.isSome = true ∧ ∃ r, handlerOutcome t = Except.ok r ∧ t.result = some r
  failed_flags : ∀ x t, findTask st.tasks x = some t → t.status = TaskStatus.failed →
    t.completedAt.isSome = true ∧ ∃ e, handlerOutcome t = Except.error e ∧ t.error = some e

/-- Status transitions of the state machine actually implemented by the
engine: pending to running at dispatch, running to completed or failed at
handler return, pending to blocked at a blocking decision. -/
inductive StatusStep : TaskStatus → TaskStatus → Prop where
  | dispatch : StatusStep TaskStatus.pending TaskStatus.running
  | complete : StatusStep TaskStatus.running TaskStatus.completed
  | fail : StatusStep TaskStatus.running TaskStatus.failed
  | block : StatusStep TaskStatus.pending TaskStatus.blocked

/-! Concrete registries used to exercise the development on closed inputs. -/

/-- Two foundation tasks, b depending on a: a small acyclic registry. -/
def regBasic : List Task :=
  [{ id := "a", name := "A", phase := TaskPhase.foundation },
   { id := "b", name := "B", phase := TaskPhase.foundation, dependencies := ["a"] }]

/-- A backward cross-phase edge: b, of the earlier foundation phase,
depends on a, of the later core-implementation phase. -/
def regCross : List Task :=
  [{ id := "a", name := "A", phase := TaskPhase.coreImpl },
   { id := "b", name := "B", phase := TaskPhase.foundation, dependencies := ["a"] }]

/-- A three-task chain a before b before c where the handler of a raises. -/
def regChain : List Task :=
  [{ id := "a", name := "A", phase := TaskPhase.foundation,
     handler := some (Except.error "boom") },
   { id := "b", name := "B", phase := TaskPhase.foundation, dependencies := ["a"] },
   { id := "c", name := "C", phase := TaskPhase.foundation, dependencies := ["b"] }]

/-- A two-cycle a with b inside the foundation phase, plus an independent
task c of the same phase. -/
def regCycle : List Task :=
  [{ id := "a", name := "A", phase := TaskPhase.foundation, dependencies := ["b"] },
   { id := "b", name := "B", phase := TaskPhase.foundation, dependencies := ["a"] },
   { id := "c", name := "C", phase := TaskPhase.foundation }]

/-- Four same-phase tasks registered a, b, x, y with x after b and y
after a: the second wave of the sort lists y before x. -/
def regDiamond : List Task :=
  [{ id := "a", name := "A", phase := TaskPhase.foundation },
   { id := "b", name := "B", phase := TaskPhase.foundation },
   { id := "x", name := "X", phase := TaskPhase.foundation, dependencies := ["b"] },
   { id := "y", name := "Y", phase := TaskPhase.foundation, dependencies := ["a"] }]

/-- A first registration under the id a. -/
def taskA1 : Task :=
  { id := "a", name := "first", phase := TaskPhase.foundation }

/-- A second, different registration under the same id a. -/
def taskA2 : Task :=
  { id := "a", name := "second", phase := TaskPhase.foundation }

/-- A task whose single dependency, ghost, is never registered. -/
def taskGhostDep : Task :=
  { id := "x", name := "X", phase := TaskPhase.foundation, dependencies := ["ghost"] }


/-! Generic list lemmas used by the scheduler proofs. -/

theorem foldl_nested_eq_foldl_flatMap {α β γ : Type _} (f : β → α → β) (g : γ → List α)
    (l : List γ) (init : β) :
    l.foldl (fun st x => (g x).foldl f st) init = (l.flatMap g).foldl f init := by
  induction l generalizing init with
  | nil => rfl
  | cons x xs ih => simp [List.flatMap_cons, List.foldl_append, ih]

theorem exists_min_image {α : Type _} (l : List α) (f : α → Nat) (h : l ≠ []) :
    ∃ a ∈ l, ∀ b ∈ l, f a ≤ f b := by
  induction l with
  | nil => exact absurd rfl h
  | cons x xs ih =>
    cases xs with
    | nil => exact ⟨x, by simp, by simp⟩
    | cons y ys =>
      obtain ⟨a, ha, hmin⟩ := ih (by simp)
      by_cases hx : f x ≤ f a
      · refine ⟨x, by simp, ?_⟩
        intro b hb
        rcases List.mem_cons.mp hb with hb | hb
        · subst hb; exact Nat.le_refl _
        · exact Nat.le_trans hx (hmin b hb)
      · refine ⟨a, List.mem_cons_of_mem _ ha, ?_⟩
        intro b hb
        rcases List.mem_cons.mp hb with hb | hb
        · subst hb; omega
        · exact hmin b hb

theorem countP_or_disjoint {α : Type _} (l : List α) (p q : α → Bool)
    (h : ∀ a ∈ l, ¬(p a = true ∧ q a = true)) :
    l.countP (fun a => p a || q a) = l.countP p + l.countP q := by
  induction l with
  | nil => simp
  | cons a l ih =>
    have ha := h a (List.mem_cons_self a l)
    have ih2 := ih (fun b hb => h b (List.mem_cons_of_mem a hb))
    simp only [List.countP_cons, ih2]
    cases hp : p a <;> cases hq : q a <;> simp [hp, hq] at ha ⊢ <;> omega

theorem countP_eq_sub_add {α : Type _} (l : List α) (p q : α → Bool)
    (h : ∀ a ∈ l, q a = true → p a = true) :
    l.countP p = l.countP (fun a => p a && !q a) + l.countP q := by
  induction l with
  | nil => simp
  | cons a l ih =>
    have ha := h a (List.mem_cons_self a l)
    have ih2 := ih (fun b hb => h b (List.mem_cons_of_mem a hb))
    simp only [List.countP_cons, ih2]
    cases hp : p a <;> cases hq : q a <;> simp [hp, hq] at ha ⊢ <;> omega

theorem countP_le_of_imp {α : Type _} (l : List α) (p q : α → Bool)
    (h : ∀ a ∈ l, p a = true → q a = true) :
    l.countP p ≤ l.countP q :=
  List.countP_mono_left h

theorem sum_count_eq_countP_mem {α : Type _} [DecidableEq α] (l : List α) (W : List α)
    (hW : W.Nodup) :
    (W.map (fun u => l.count u)).sum = l.countP (fun d => decide (d ∈ W)) := by
  induction W with
  | nil => simp
  | cons u W ih =>
    have hu : u ∉ W := (List.nodup_cons.mp hW).1
    have ih2 := ih (List.nodup_cons.mp hW).2
    have hsplit : l.countP (fun d => decide (d ∈ u :: W)) =
        l.countP (fun d => decide (d = u)) + l.countP (fun d => decide (d ∈ W)) := by
      have := countP_or_disjoint l (fun d => decide (d = u)) (fun d => decide (d ∈ W))
        (fun a _ hc => by
          simp only [decide_eq_true_eq] at hc
          exact hu (hc.1 ▸ hc.2))
      rw [← this]
      refine List.countP_congr (fun x _ => ?_)
      simp [List.mem_cons]
    have hcount : l.count u = l.countP (fun d => decide (d = u)) := by
      rw [List.count_eq_countP]
      refine List.countP_congr (fun x _ => ?_)
      constructor
      · intro hb; simp only [decide_eq_true_eq]; exact eq_of_beq hb
      · intro hb; simp only [decide_eq_true_eq] at hb; exact beq_iff_eq.mpr hb
    simp only [List.map_cons, List.sum_cons, hsplit, ih2, hcount]

theorem mem_flatten_take {α : Type _} (waves : List (List α)) (i : Nat) (x : α)
    (h : x ∈ (waves.take i).flatten) : ∃ k, k < i ∧ x ∈ waves.getD k [] := by
  induction waves generalizing i with
  | nil => simp at h
  | cons w ws ih =>
    cases i with
    | zero => simp at h
    | succ i =>
      rw [List.take_succ_cons, List.flatten_cons] at h
      rcases List.mem_append.mp h with hw | hws
      · exact ⟨0, Nat.succ_pos _, by simpa using hw⟩
      · obtain ⟨k, hk, hm⟩ := ih i hws
        exact ⟨k + 1, by omega, by simpa using hm⟩

theorem mem_take_flatten_of_getD {α : Type _} (waves : List (List α)) (k i : Nat) (x : α)
    (hm : x ∈ waves.getD k []) (hk : k < i) : x ∈ (waves.take i).flatten := by
  induction waves generalizing k i with
  | nil => simp [List.getD] at hm
  | cons w ws ih =>
    cases k with
    | zero =>
      simp only [List.getD_cons_zero] at hm
      cases i with
      | zero => omega
      | succ i => rw [List.take_succ_cons, List.flatten_cons]; exact List.mem_append_left _ hm
    | succ k =>
      simp only [List.getD_cons_succ] at hm
      cases i with
      | zero => omega
      | succ i =>
        rw [List.take_succ_cons, List.flatten_cons]
        exact List.mem_append_right _ (ih k i hm (by omega))

theorem mem_flatten_of_getD {α : Type _} (waves : List (List α)) (k : Nat) (x : α)
    (hm : x ∈ waves.getD k []) : x ∈ waves.flatten := by
  induction waves generalizing k with
  | nil => simp [List.getD] at hm
  | cons w ws ih =>
    cases k with
    | zero => simp only [List.getD_cons_zero] at hm; exact List.mem_flatten.mpr ⟨w, by simp, hm⟩
    | succ k =>
      simp only [List.getD_cons_succ] at hm
      rw [List.flatten_cons]
      exact List.mem_append_right _ (ih k hm)

theorem mem_drop_flatten_of_getD {α : Type _} (waves : List (List α)) (k : Nat) (x : α)
    (hm : x ∈ waves.getD k []) : x ∈ (waves.drop k).flatten := by
  induction waves generalizing k with
  | nil => simp [List.getD] at hm
  | cons w ws ih =>
    cases k with
    | zero => simpa using mem_flatten_of_getD (w :: ws) 0 x hm
    | succ k => simp only [List.getD_cons_succ] at hm; simpa using ih k hm

theorem getD_unique_of_flatten_nodup {α : Type _} (waves : List (List α))
    (hn : waves.flatten.Nodup) (i j : Nat) (x : α)
    (hi : x ∈ waves.getD i []) (hj : x ∈ waves.getD j []) : i = j := by
  by_contra hne
  have key : ∀ a b : Nat, a < b → x ∈ waves.getD a [] → x ∈ waves.getD b [] → False := by
    intro a b hab hma hmb
    have h1 : x ∈ (waves.take b).flatten := mem_take_flatten_of_getD waves a b x hma hab
    have h2 : x ∈ (waves.drop b).flatten := mem_drop_flatten_of_getD waves b x hmb
    have hsplit : waves.flatten = (waves.take b).flatten ++ (waves.drop b).flatten := by
      rw [← List.flatten_append, List.take_append_drop]
    rw [hsplit] at hn
    exact (List.nodup_append.mp hn).2.2 h1 h2
  rcases Nat.lt_or_ge i j with h | h
  · exact key i j h hi hj
  · exact key j i (by omega) hj hi

theorem countP_waves_eq_one_of_nodup {α : Type _} (waves : List (List α)) (x : α)
    [DecidablePred (fun w : List α => x ∈ w)]
    (hn : waves.flatten.Nodup) (hx : x ∈ waves.flatten) :
    waves.countP (fun w => decide (x ∈ w)) = 1 := by
  induction waves with
  | nil => simp at hx
  | cons w ws ih =>
    rw [List.flatten_cons] at hx hn
    rw [List.nodup_append] at hn
    rw [List.countP_cons]
    by_cases hw : x ∈ w
    · have hnot : x ∉ ws.flatten := fun hc => hn.2.2 hw hc
      have : ws.countP (fun v => decide (x ∈ v)) = 0 := by
        rw [List.countP_eq_zero]
        intro v hv hxv
        simp only [decide_eq_true_eq] at hxv
        exact hnot (List.mem_flatten.mpr ⟨v, hv, hxv⟩)
      simp [this, hw]
    · have hx2 : x ∈ ws.flatten := by
        rcases List.mem_append.mp hx with h | h
        · exact absurd h hw
        · exact h
      have := ih hn.2.1 hx2
      simp [this, hw]

/-! Characterization of the inner loops of _topological_sort. -/

theorem count_eq_countP_decide {α : Type _} [DecidableEq α] (l : List α) (u : α) :
    l.count u = l.countP (fun d => decide (d = u)) := by
  rw [List.count_eq_countP]
  refine List.countP_congr (fun x _ => ?_)
  constructor
  · intro hb; simp only [decide_eq_true_eq]; exact eq_of_beq hb
  · intro hb; simp only [decide_eq_true_eq] at hb; exact beq_iff_eq.mpr hb

theorem count_adjListOf (reg : List Task) (ids : List String) (hids : ids.Nodup)
    (v u : String) :
    List.count v (adjListOf reg ids u) =
      if v ∈ ids then List.count u (depsOf reg v) else 0 := by
  unfold adjListOf
  induction ids with
  | nil => simp
  | cons tid rest ih =>
    have hrest : rest.Nodup := (List.nodup_cons.mp hids).2
    have htid : tid ∉ rest := (List.nodup_cons.mp hids).1
    rw [List.flatMap_cons, List.count_append, ih hrest]
    have hmapcount : List.count v (((depsOf reg tid).filter
        (fun d => decide (d = u))).map (fun _ => tid)) =
        if v = tid then List.count u (depsOf reg tid) else 0 := by
      have hconst : ((depsOf reg tid).filter (fun d => decide (d = u))).map
          (fun _ => tid) =
          List.replicate (((depsOf reg tid).filter (fun d => decide (d = u))).map
            (fun _ => tid)).length tid := by
        apply List.eq_replicate_of_mem
        intro b hb
        rcases List.mem_map.mp hb with ⟨c, _, hc⟩
        exact hc.symm
      rw [List.length_map] at hconst
      rw [hconst, List.count_replicate]
      have hlen : ((depsOf reg tid).filter (fun d => decide (d = u))).length =
          List.count u (depsOf reg tid) := by
        rw [count_eq_countP_decide, List.countP_eq_length_filter]
      by_cases hv : v = tid
      · simp [hv, hlen]
      · have : (tid == v) = false := by
          refine beq_eq_false_iff_ne.mpr ?_
          exact fun hc => hv hc.symm
        simp [this, hv]
    rw [hmapcount]
    by_cases hv : v = tid
    · subst hv
      simp [htid]
    · simp only [List.mem_cons]
      by_cases hvr : v ∈ rest
      · simp [hv, hvr]
      · simp [hv, hvr]

theorem count_flatMap_adjListOf (reg : List Task) (ids : List String) (hids : ids.Nodup)
    (W : List String) (hW : W.Nodup) (v : String) :
    List.count v (W.flatMap (adjListOf reg ids)) =
      if v ∈ ids then (depsOf reg v).countP (fun d => decide (d ∈ W)) else 0 := by
  rw [List.count_flatMap]
  have hmap : W.map (List.count v ∘ adjListOf reg ids) =
      W.map (fun u => if v ∈ ids then List.count u (depsOf reg v) else 0) := by
    refine List.map_congr_left (fun u _ => ?_)
    exact count_adjListOf reg ids hids v u
  rw [hmap]
  by_cases hv : v ∈ ids
  · simp only [hv, if_true]
    exact sum_count_eq_countP_mem (depsOf reg v) W hW
  · simp only [hv, if_false]
    have : W.map (fun _ : String => (0 : Nat)) = W.map (fun u => 0) := rfl
    simp

theorem stepNeighbor_foldl (L : List String) (deg : String → Int) (q : List String)
    (hq : q.Nodup) (hle : ∀ v ∈ q, deg v ≤ 0) :
    (∀ v, (L.foldl stepNeighbor (deg, q)).1 v = deg v - L.count v) ∧
    (∀ v, v ∈ (L.foldl stepNeighbor (deg, q)).2 ↔
      v ∈ q ∨ (0 < deg v ∧ deg v - L.count v ≤ 0)) ∧
    (L.foldl stepNeighbor (deg, q)).2.Nodup := by
  induction L generalizing deg q with
  | nil =>
    refine ⟨fun v => by simp, fun v => ?_, hq⟩
    simp only [List.foldl_nil, List.count_nil]
    constructor
    · intro h; exact Or.inl h
    · intro h
      rcases h with h | ⟨h1, h2⟩
      · exact h
      · omega
  | cons n L ih =>
    have hfold : (n :: L).foldl stepNeighbor (deg, q) =
        L.foldl stepNeighbor (stepNeighbor (deg, q) n) := rfl
    obtain ⟨deg2, q2, hstep⟩ :
        ∃ d2 q2, stepNeighbor (deg, q) n = (d2, q2) := ⟨_, _, rfl⟩
    have hdeg2n : deg2 n = deg n - 1 := by
      have := congrArg Prod.fst hstep
      simp only [stepNeighbor] at this
      rw [← this]
      simp
    have hdeg2x : ∀ x, x ≠ n → deg2 x = deg x := by
      intro x hx
      have := congrArg Prod.fst hstep
      simp only [stepNeighbor] at this
      rw [← this]
      simp [hx]
    have hq2eq : q2 = if deg n - 1 = 0 then q ++ [n] else q := by
      have := congrArg Prod.snd hstep
      simp only [stepNeighbor] at this
      rw [← this]
    have hnq : deg n - 1 = 0 → n ∉ q := by
      intro h0 hc
      have := hle n hc
      omega
    have hq2nodup : q2.Nodup := by
      rw [hq2eq]
      by_cases h0 : deg n - 1 = 0
      · simp only [h0, if_true]
        rw [List.nodup_append]
        refine ⟨hq, List.nodup_singleton n, ?_⟩
        intro a ha hb
        simp only [List.mem_singleton] at hb
        subst hb
        exact hnq h0 ha
      · simp only [h0, if_false]
        exact hq
    have hmemq2 : ∀ v, v ≠ n → (v ∈ q2 ↔ v ∈ q) := by
      intro v hv
      rw [hq2eq]
      by_cases h0 : deg n - 1 = 0
      · simp only [h0, if_true]
        constructor
        · intro h
          rcases List.mem_append.mp h with h | h
          · exact h
          · simp only [List.mem_singleton] at h
            exact absurd h hv
        · intro h
          exact List.mem_append_left _ h
      · simp only [h0, if_false]
    have hq2le : ∀ v ∈ q2, deg2 v ≤ 0 := by
      intro v hv
      by_cases hvn : v = n
      · rw [hvn, hdeg2n]
        by_cases h0 : deg n - 1 = 0
        · omega
        · have hvq : v ∈ q := by
            rw [hq2eq] at hv
            simp only [h0, if_false] at hv
            exact hv
          have := hle v hvq
          rw [hvn] at this
          omega
      · rw [hdeg2x v hvn]
        have hvq : v ∈ q := (hmemq2 v hvn).mp hv
        exact hle v hvq
    obtain ⟨ih1, ih2, ih3⟩ := ih deg2 q2 hq2nodup hq2le
    rw [hfold, hstep]
    have hcount : ∀ v, List.count v (n :: L) =
        List.count v L + if (n == v) = true then 1 else 0 := by
      intro v
      rw [List.count_cons]
    refine ⟨fun v => ?_, fun v => ?_, ih3⟩
    · rw [ih1 v, hcount v]
      by_cases hv : v = n
      · have hdv : deg2 v = deg n - 1 := by rw [hv, hdeg2n]
        rw [hdv, hv]
        simp only [beq_self_eq_true, if_true]
        push_cast
        omega
      · have hdv : deg2 v = deg v := hdeg2x v hv
        have hbeq : (n == v) = false := beq_eq_false_iff_ne.mpr (fun hc => hv hc.symm)
        rw [hdv, hbeq]
        simp
    · rw [ih2 v, hcount v]
      by_cases hv : v = n
      · have hdv : deg2 v = deg n - 1 := by rw [hv, hdeg2n]
        rw [hdv, hv]
        simp only [beq_self_eq_true, if_true]
        by_cases h0 : deg n - 1 = 0
        · have hmem : n ∈ q2 := by
            rw [hq2eq]
            simp only [h0, if_true]
            exact List.mem_append_right _ (List.mem_singleton_self n)
          have hc : (0 : Int) ≤ (List.count n L : Int) := Int.natCast_nonneg _
          constructor
          · intro _
            right
            constructor
            · omega
            · push_cast
              omega
          · intro _
            exact Or.inl hmem
        · have hmem : n ∈ q2 ↔ n ∈ q := by
            rw [hq2eq]
            simp only [h0, if_false]
          rw [hmem]
          constructor
          · intro h
            rcases h with h | ⟨h1, h2⟩
            · exact Or.inl h
            · right
              push_cast at h2 ⊢
              omega
          · intro h
            rcases h with h | ⟨h1, h2⟩
            · exact Or.inl h
            · right
              push_cast at h2 ⊢
              omega
      · have hdv : deg2 v = deg v := hdeg2x v hv
        have hbeq : (n == v) = false := beq_eq_false_iff_ne.mpr (fun hc => hv hc.symm)
        rw [hdv, hbeq, hmemq2 v hv]
        simp

theorem processGroup_spec (reg : List Task) (ids : List String) (hids : ids.Nodup)
    (deg : String → Int) (W : List String) (hW : W.Nodup) :
    (∀ v ∈ ids, (processGroup (adjListOf reg ids) deg W).1 v =
      deg v - ((depsOf reg v).countP (fun d => decide (d ∈ W)) : Nat)) ∧
    (∀ v, v ∈ (processGroup (adjListOf reg ids) deg W).2 ↔
      v ∈ ids ∧ 0 < deg v ∧
        deg v - ((depsOf reg v).countP (fun d => decide (d ∈ W)) : Nat) ≤ 0) ∧
    (processGroup (adjListOf reg ids) deg W).2.Nodup := by
  unfold processGroup
  rw [foldl_nested_eq_foldl_flatMap]
  obtain ⟨h1, h2, h3⟩ := stepNeighbor_foldl (W.flatMap (adjListOf reg ids)) deg []
    List.nodup_nil (by intro v hv; simp at hv)
  have hcnt : ∀ v, (List.count v (W.flatMap (adjListOf reg ids)) : Int) =
      if v ∈ ids then ((depsOf reg v).countP (fun d => decide (d ∈ W)) : Nat) else 0 := by
    intro v
    rw [count_flatMap_adjListOf reg ids hids W hW v]
  refine ⟨fun v hv => ?_, fun v => ?_, h3⟩
  · rw [h1 v]
    have := hcnt v
    simp only [hv, if_true] at this
    rw [this]
  · rw [h2 v]
    have := hcnt v
    by_cases hv : v ∈ ids
    · simp only [hv, if_true] at this
      rw [this]
      simp [hv]
    · simp only [hv, if_false] at this
      rw [this]
      simp [hv]


/-! Invariant of the wave loop of _topological_sort and its consequences. -/

theorem rdeg_append (reg : List Task) (ids done W : List String) (v : String)
    (hWsub : ∀ x ∈ W, x ∈ ids) (hWdone : ∀ x ∈ W, x ∉ done) :
    rdeg reg ids done v =
      rdeg reg ids (done ++ W) v + (depsOf reg v).countP (fun d => decide (d ∈ W)) := by
  unfold rdeg
  have hsplit := countP_eq_sub_add (depsOf reg v)
    (fun d => decide (d ∈ ids) && !decide (d ∈ done))
    (fun d => decide (d ∈ W))
    (fun d _ hd => by
      simp only [decide_eq_true_eq] at hd
      simp only [Bool.and_eq_true, decide_eq_true_eq, Bool.not_eq_eq_eq_not,
        Bool.not_true, decide_eq_false_iff_not]
      exact ⟨hWsub d hd, hWdone d hd⟩)
  rw [hsplit]
  congr 1
  refine List.countP_congr (fun d _ => ?_)
  simp only [Bool.and_eq_true, decide_eq_true_eq, Bool.not_eq_eq_eq_not, Bool.not_true,
    decide_eq_false_iff_not, List.mem_append]
  constructor
  · intro h
    exact ⟨h.1.1, fun hc => by
      rcases hc with hc | hc
      · exact h.1.2 hc
      · exact h.2 hc⟩
  · intro h
    exact ⟨⟨h.1, fun hc => h.2 (Or.inl hc)⟩, fun hc => h.2 (Or.inr hc)⟩

theorem kahnInv_step (reg : List Task) (ids done W : List String) (deg : String → Int)
    (hids : ids.Nodup) (inv : KahnInv reg ids done W deg) :
    KahnInv reg ids (done ++ W) (processGroup (adjListOf reg ids) deg W).2
      (processGroup (adjListOf reg ids) deg W).1 := by
  obtain ⟨h1, h2, h3⟩ := processGroup_spec reg ids hids deg W inv.queue_nodup
  have hWzero : ∀ v ∈ W, rdeg reg ids done v = 0 := by
    intro v hv
    exact (inv.queue_char v (inv.queue_sub v hv) (inv.disj v hv)).mp hv
  have hra : ∀ v, rdeg reg ids done v =
      rdeg reg ids (done ++ W) v + (depsOf reg v).countP (fun d => decide (d ∈ W)) :=
    fun v => rdeg_append reg ids done W v inv.queue_sub inv.disj
  have hdisj2 : ∀ v ∈ done, v ∉ W := by
    intro v hv hc
    exact inv.disj v hc hv
  have hdeg_eq2 : ∀ v ∈ ids, (processGroup (adjListOf reg ids) deg W).1 v =
      (rdeg reg ids (done ++ W) v : Nat) := by
    intro v hv
    rw [h1 v hv, inv.deg_eq v hv, hra v]
    push_cast
    omega
  have hmemQ : ∀ v, v ∈ (processGroup (adjListOf reg ids) deg W).2 ↔
      v ∈ ids ∧ 0 < rdeg reg ids done v ∧ rdeg reg ids (done ++ W) v = 0 := by
    intro v
    rw [h2 v]
    constructor
    · rintro ⟨hv, hpos, hle⟩
      have hdeq := inv.deg_eq v hv
      have hrav := hra v
      refine ⟨hv, ?_, ?_⟩ <;> omega
    · rintro ⟨hv, hpos, hle⟩
      have hdeq := inv.deg_eq v hv
      have hrav := hra v
      refine ⟨hv, ?_, ?_⟩ <;> omega
  refine ⟨?_, h3, ?_, ?_, ?_, hdeg_eq2, ?_, ?_⟩
  · rw [List.nodup_append]
    exact ⟨inv.done_nodup, inv.queue_nodup, fun a ha hb => inv.disj a hb ha⟩
  · intro v hv
    rcases List.mem_append.mp hv with h | h
    · exact inv.done_sub v h
    · exact inv.queue_sub v h
  · intro v hv
    exact ((hmemQ v).mp hv).1
  · intro v hv hc
    have hpos := ((hmemQ v).mp hv).2.1
    rcases List.mem_append.mp hc with h | h
    · have := inv.done_zero v h
      omega
    · have := hWzero v h
      omega
  · intro v hv hnd
    rw [hmemQ v]
    constructor
    · intro h
      exact h.2.2
    · intro h
      refine ⟨hv, ?_, h⟩
      by_contra hz
      have hz0 : rdeg reg ids done v = 0 := by omega
      have hvd : v ∉ done := fun hc => hnd (List.mem_append_left _ hc)
      have := (inv.queue_char v hv hvd).mpr hz0
      exact hnd (List.mem_append_right _ this)
  · intro v hv
    rcases List.mem_append.mp hv with h | h
    · have h0 := inv.done_zero v h
      have := hra v
      omega
    · have h0 := hWzero v h
      have := hra v
      omega

theorem countP_mem_eq_length (ids W : List String) (hids : ids.Nodup) (hW : W.Nodup)
    (hsub : ∀ x ∈ W, x ∈ ids) :
    ids.countP (fun v => decide (v ∈ W)) = W.length := by
  rw [List.countP_eq_length_filter]
  have hperm : (ids.filter (fun v => decide (v ∈ W))).Perm W := by
    apply (List.perm_ext_iff_of_nodup (hids.filter _) hW).mpr
    intro a
    simp only [List.mem_filter, decide_eq_true_eq]
    constructor
    · intro h
      exact h.2
    · intro h
      exact ⟨hsub a h, h⟩
  exact hperm.length_eq

theorem kahnAux_spec (reg : List Task) (ids : List String) (hids : ids.Nodup) :
    ∀ (fuel : Nat) (deg : String → Int) (queue done : List String),
    KahnInv reg ids done queue deg →
    ((done ++ (kahnAux (adjListOf reg ids) fuel deg queue).flatten).Nodup ∧
     (∀ w ∈ kahnAux (adjListOf reg ids) fuel deg queue, ∀ v ∈ w, v ∈ ids) ∧
     (∀ i v, v ∈ (kahnAux (adjListOf reg ids) fuel deg queue).getD i [] →
        ∀ d ∈ depsOf reg v, d ∈ ids →
          d ∈ done ++ ((kahnAux (adjListOf reg ids) fuel deg queue).take i).flatten)) := by
  intro fuel
  induction fuel with
  | zero =>
    intro deg queue done inv
    have hres : kahnAux (adjListOf reg ids) 0 deg queue = [] := rfl
    rw [hres]
    refine ⟨by simpa using inv.done_nodup, by simp, ?_⟩
    intro i v hv
    simp at hv
  | succ fuel ih =>
    intro deg queue done inv
    by_cases hempty : queue.isEmpty
    · have hres : kahnAux (adjListOf reg ids) (fuel + 1) deg queue = [] := by
        simp [kahnAux, hempty]
      rw [hres]
      refine ⟨by simpa using inv.done_nodup, by simp, ?_⟩
      intro i v hv
      simp at hv
    · have hres : kahnAux (adjListOf reg ids) (fuel + 1) deg queue =
          queue :: kahnAux (adjListOf reg ids) fuel
            (processGroup (adjListOf reg ids) deg queue).1
            (processGroup (adjListOf reg ids) deg queue).2 := by
        simp [kahnAux, hempty]
      have inv2 := kahnInv_step reg ids done queue deg hids inv
      obtain ⟨iha, ihb, ihc⟩ := ih (processGroup (adjListOf reg ids) deg queue).1
        (processGroup (adjListOf reg ids) deg queue).2 (done ++ queue) inv2
      rw [hres]
      refine ⟨?_, ?_, ?_⟩
      · rw [List.flatten_cons, ← List.append_assoc]
        exact iha
      · intro w hw v hv
        rcases List.mem_cons.mp hw with hw | hw
        · subst hw
          exact inv.queue_sub v hv
        · exact ihb w hw v hv
      · intro i v hv d hd hdi
        cases i with
        | zero =>
          simp only [List.getD_cons_zero] at hv
          have hvids := inv.queue_sub v hv
          have hvd := inv.disj v hv
          have h0 := (inv.queue_char v hvids hvd).mp hv
          unfold rdeg at h0
          rw [List.countP_eq_zero] at h0
          have := h0 d hd
          simp only [Bool.and_eq_true, decide_eq_true_eq, Bool.not_eq_eq_eq_not,
            Bool.not_true, decide_eq_false_iff_not, not_and, not_not] at this
          simp only [List.take_zero, List.flatten_nil, List.append_nil]
          exact this hdi
        | succ i =>
          simp only [List.getD_cons_succ] at hv
          have := ihc i v hv d hd hdi
          rw [List.take_succ_cons, List.flatten_cons, ← List.append_assoc]
          exact this

theorem kahnAux_complete (reg : List Task) (ids : List String) (hids : ids.Nodup)
    (r : String → Nat) (hr : ScopedRank reg ids r) :
    ∀ (fuel : Nat) (deg : String → Int) (queue done : List String),
    KahnInv reg ids done queue deg →
    (ids.filter (fun v => decide (v ∉ done))).length ≤ fuel →
    ∀ v ∈ ids, v ∈ done ++ (kahnAux (adjListOf reg ids) fuel deg queue).flatten := by
  have hqueue_empty : ∀ (deg : String → Int) (queue done : List String),
      KahnInv reg ids done queue deg → queue = [] → ∀ v ∈ ids, v ∈ done := by
    intro deg queue done inv hq v hv
    by_contra hvd
    have hSne : ids.filter (fun v => decide (v ∉ done)) ≠ [] := by
      intro hc
      have : v ∈ ids.filter (fun v => decide (v ∉ done)) := by
        simp [List.mem_filter, hv, hvd]
      rw [hc] at this
      simp at this
    obtain ⟨m, hmS, hmin⟩ := exists_min_image _ r hSne
    have hmids : m ∈ ids := (List.mem_filter.mp hmS).1
    have hmd : m ∉ done := by
      have := (List.mem_filter.mp hmS).2
      simpa using this
    have hm0 : rdeg reg ids done m = 0 := by
      unfold rdeg
      rw [List.countP_eq_zero]
      intro d hd
      simp only [Bool.and_eq_true, decide_eq_true_eq, Bool.not_eq_eq_eq_not,
        Bool.not_true, decide_eq_false_iff_not]
      intro hcon
      have hdlt := hr m hmids d hd hcon.1
      have hdS : d ∈ ids.filter (fun v => decide (v ∉ done)) := by
        simp [List.mem_filter, hcon.1, hcon.2]
      have := hmin d hdS
      omega
    have := (inv.queue_char m hmids hmd).mpr hm0
    rw [hq] at this
    simp at this
  intro fuel
  induction fuel with
  | zero =>
    intro deg queue done inv hlen v hv
    have : ids.filter (fun v => decide (v ∉ done)) = [] :=
      List.eq_nil_of_length_eq_zero (Nat.le_zero.mp hlen)
    have hvdone : v ∈ done := by
      by_contra hvd
      have hm : v ∈ ids.filter (fun v => decide (v ∉ done)) := by
        simp [List.mem_filter, hv, hvd]
      rw [this] at hm
      simp at hm
    exact List.mem_append_left _ hvdone
  | succ fuel ih =>
    intro deg queue done inv hlen v hv
    by_cases hempty : queue.isEmpty
    · have hq : queue = [] := List.isEmpty_iff.mp hempty
      exact List.mem_append_left _ (hqueue_empty deg queue done inv hq v hv)
    · have hres : kahnAux (adjListOf reg ids) (fuel + 1) deg queue =
          queue :: kahnAux (adjListOf reg ids) fuel
            (processGroup (adjListOf reg ids) deg queue).1
            (processGroup (adjListOf reg ids) deg queue).2 := by
        simp [kahnAux, hempty]
      have inv2 := kahnInv_step reg ids done queue deg hids inv
      have hqne : queue ≠ [] := fun hc => hempty (by simp [hc])
      have hcount : (ids.filter (fun v => decide (v ∉ done))).length =
          (ids.filter (fun v => decide (v ∉ done ++ queue))).length + queue.length := by
        rw [← List.countP_eq_length_filter, ← List.countP_eq_length_filter]
        have hsplit := countP_eq_sub_add ids
          (fun v => decide (v ∉ done))
          (fun v => decide (v ∈ queue))
          (fun x _ hx => by
            simp only [decide_eq_true_eq] at hx ⊢
            exact inv.disj x hx)
        rw [hsplit]
        congr 1
        · refine List.countP_congr (fun x _ => ?_)
          simp only [Bool.and_eq_true, decide_eq_true_eq, Bool.not_eq_eq_eq_not,
            Bool.not_true, decide_eq_false_iff_not, List.mem_append, not_or]
        · exact countP_mem_eq_length ids queue hids inv.queue_nodup inv.queue_sub
      have hlen2 : (ids.filter (fun v => decide (v ∉ done ++ queue))).length ≤ fuel := by
        have hq1 : 1 ≤ queue.length := by
          cases queue with
          | nil => exact absurd rfl hqne
          | cons a l => simp
        omega
      have := ih (processGroup (adjListOf reg ids) deg queue).1
        (processGroup (adjListOf reg ids) deg queue).2 (done ++ queue) inv2 hlen2 v hv
      rw [hres, List.flatten_cons, ← List.append_assoc]
      exact this



/-! Top-level properties of _topological_sort. -/

theorem topologicalSort_eq (reg : List Task) (ids : List String) :
    topologicalSort reg ids = kahnAux (adjListOf reg ids) (ids.length + 1)
      (inDegreeInit reg ids)
      (ids.filter (fun v => decide (inDegreeInit reg ids v = 0))) := rfl

theorem rdeg_nil (reg : List Task) (ids : List String) (v : String) :
    rdeg reg ids [] v = (depsOf reg v).countP (fun d => decide (d ∈ ids)) := by
  unfold rdeg
  refine List.countP_congr (fun d _ => ?_)
  simp

theorem initial_kahnInv (reg : List Task) (ids : List String) (hids : ids.Nodup) :
    KahnInv reg ids [] (ids.filter (fun v => decide (inDegreeInit reg ids v = 0)))
      (inDegreeInit reg ids) := by
  refine ⟨List.nodup_nil, hids.filter _, by simp, ?_, by simp, ?_, ?_, by simp⟩
  · intro v hv
    exact (List.mem_filter.mp hv).1
  · intro v _
    rw [rdeg_nil]
    rfl
  · intro v hv _
    rw [rdeg_nil]
    constructor
    · intro h
      have := (List.mem_filter.mp h).2
      simp only [decide_eq_true_eq] at this
      unfold inDegreeInit at this
      exact_mod_cast this
    · intro h
      refine List.mem_filter.mpr ⟨hv, ?_⟩
      simp only [decide_eq_true_eq]
      unfold inDegreeInit
      exact_mod_cast h

theorem topologicalSort_flatten_nodup (reg : List Task) (ids : List String)
    (hids : ids.Nodup) : (topologicalSort reg ids).flatten.Nodup := by
  rw [topologicalSort_eq]
  have := (kahnAux_spec reg ids hids (ids.length + 1) (inDegreeInit reg ids)
    (ids.filter (fun v => decide (inDegreeInit reg ids v = 0))) []
    (initial_kahnInv reg ids hids)).1
  simpa using this

theorem topologicalSort_mem_ids (reg : List Task) (ids : List String)
    (hids : ids.Nodup) : ∀ w ∈ topologicalSort reg ids, ∀ v ∈ w, v ∈ ids := by
  rw [topologicalSort_eq]
  exact (kahnAux_spec reg ids hids (ids.length + 1) (inDegreeInit reg ids)
    (ids.filter (fun v => decide (inDegreeInit reg ids v = 0))) []
    (initial_kahnInv reg ids hids)).2.1

theorem topologicalSort_deps_closed (reg : List Task) (ids : List String)
    (hids : ids.Nodup) :
    ∀ i v, v ∈ (topologicalSort reg ids).getD i [] → ∀ d ∈ depsOf reg v, d ∈ ids →
      d ∈ ((topologicalSort reg ids).take i).flatten := by
  intro i v hv d hd hdi
  have := (kahnAux_spec reg ids hids (ids.length + 1) (inDegreeInit reg ids)
    (ids.filter (fun v => decide (inDegreeInit reg ids v = 0))) []
    (initial_kahnInv reg ids hids)).2.2 i v (by rw [topologicalSort_eq] at hv; exact hv)
    d hd hdi
  simpa [← topologicalSort_eq] using this

theorem topologicalSort_complete (reg : List Task) (ids : List String)
    (hids : ids.Nodup) (r : String → Nat) (hr : ScopedRank reg ids r) :
    ∀ v ∈ ids, v ∈ (topologicalSort reg ids).flatten := by
  intro v hv
  have hlen : (ids.filter (fun v => decide (v ∉ ([] : List String)))).length ≤
      ids.length + 1 := by
    have := List.length_filter_le (fun v => decide (v ∉ ([] : List String))) ids
    omega
  have := kahnAux_complete reg ids hids r hr (ids.length + 1) (inDegreeInit reg ids)
    (ids.filter (fun v => decide (inDegreeInit reg ids v = 0))) []
    (initial_kahnInv reg ids hids) hlen v hv
  rw [topologicalSort_eq]
  simpa using this

theorem topologicalSort_perm (reg : List Task) (ids : List String)
    (hids : ids.Nodup) (r : String → Nat) (hr : ScopedRank reg ids r) :
    (topologicalSort reg ids).flatten.Perm ids := by
  apply (List.perm_ext_iff_of_nodup (topologicalSort_flatten_nodup reg ids hids) hids).mpr
  intro a
  constructor
  · intro h
    rcases List.mem_flatten.mp h with ⟨w, hw, haw⟩
    exact topologicalSort_mem_ids reg ids hids w hw a haw
  · intro h
    exact topologicalSort_complete reg ids hids r hr a h

theorem topologicalSort_edge_lt (reg : List Task) (ids : List String)
    (hids : ids.Nodup) (u v : String) (i j : Nat)
    (hu : u ∈ (topologicalSort reg ids).getD i [])
    (hv : v ∈ (topologicalSort reg ids).getD j [])
    (hdep : u ∈ depsOf reg v) (huids : u ∈ ids) : i < j := by
  have hcl := topologicalSort_deps_closed reg ids hids j v hv u hdep huids
  obtain ⟨k, hkj, hk⟩ := mem_flatten_take (topologicalSort reg ids) j u hcl
  have := getD_unique_of_flatten_nodup (topologicalSort reg ids)
    (topologicalSort_flatten_nodup reg ids hids) i k u hu hk
  omega

theorem topologicalSort_cycle_not_mem (reg : List Task) (ids : List String)
    (hids : ids.Nodup) (C : List String)
    (hCsub : ∀ v ∈ C, v ∈ ids) (hCclosed : ∀ v ∈ C, ∃ u ∈ C, u ∈ depsOf reg v) :
    ∀ v ∈ C, v ∉ (topologicalSort reg ids).flatten := by
  have key : ∀ i, ∀ v ∈ C, v ∉ (topologicalSort reg ids).getD i [] := by
    intro i
    induction i using Nat.strong_induction_on with
    | _ i ih =>
      intro v hvC hmem
      obtain ⟨u, huC, hudep⟩ := hCclosed v hvC
      have hcl := topologicalSort_deps_closed reg ids hids i v hmem u hudep (hCsub u huC)
      obtain ⟨k, hki, hk⟩ := mem_flatten_take (topologicalSort reg ids) i u hcl
      exact ih k hki u huC hk
  intro v hvC hmem
  rcases List.mem_flatten.mp hmem with ⟨w, hw, hvw⟩
  obtain ⟨k, hklt, hkw⟩ := List.getElem_of_mem hw
  have : v ∈ (topologicalSort reg ids).getD k [] := by
    rw [List.getD_eq_getElem?_getD, List.getElem?_eq_getElem hklt, hkw]
    exact hvw
  exact key k v hvC this

theorem topologicalSort_head (reg : List Task) (ids : List String) :
    (topologicalSort reg ids).headD [] =
      ids.filter (fun v => decide (inDegreeInit reg ids v = 0)) := by
  rw [topologicalSort_eq]
  by_cases hempty : (ids.filter (fun v => decide (inDegreeInit reg ids v = 0))).isEmpty
  · have h1 : kahnAux (adjListOf reg ids) (ids.length + 1) (inDegreeInit reg ids)
        (ids.filter (fun v => decide (inDegreeInit reg ids v = 0))) = [] := by
      simp [kahnAux, hempty]
    rw [h1]
    have := List.isEmpty_iff.mp hempty
    rw [this]
    rfl
  · have h1 : kahnAux (adjListOf reg ids) (ids.length + 1) (inDegreeInit reg ids)
        (ids.filter (fun v => decide (inDegreeInit reg ids v = 0))) =
        (ids.filter (fun v => decide (inDegreeInit reg ids v = 0))) ::
          kahnAux (adjListOf reg ids) ids.length
            (processGroup (adjListOf reg ids) (inDegreeInit reg ids)
              (ids.filter (fun v => decide (inDegreeInit reg ids v = 0)))).1
            (processGroup (adjListOf reg ids) (inDegreeInit reg ids)
              (ids.filter (fun v => decide (inDegreeInit reg ids v = 0)))).2 := by
      simp [kahnAux, hempty]
    rw [h1]
    rfl



/-! Registry lookup facts and per-phase scoping. -/

theorem findTask_mem_and_id (reg : List Task) (tid : String) (t : Task)
    (h : findTask reg tid = some t) : t ∈ reg ∧ t.id = tid := by
  refine ⟨List.mem_of_find?_eq_some h, ?_⟩
  have := List.find?_some h
  simpa using this

theorem findTask_eq_of_mem (reg : List Task) (hnodup : (taskIds reg).Nodup)
    (t : Task) (ht : t ∈ reg) : findTask reg t.id = some t := by
  cases hf : findTask reg t.id with
  | none =>
    rw [findTask, List.find?_eq_none] at hf
    have := hf t ht
    simp at this
  | some u =>
    obtain ⟨hu, huid⟩ := findTask_mem_and_id reg t.id u hf
    have : u = t := List.inj_on_of_nodup_map hnodup hu ht huid
    rw [this]

theorem depsOf_eq_of_mem (reg : List Task) (hnodup : (taskIds reg).Nodup)
    (t : Task) (ht : t ∈ reg) : depsOf reg t.id = t.dependencies := by
  rw [depsOf, findTask_eq_of_mem reg hnodup t ht]
  rfl

theorem mem_taskIds_iff (reg : List Task) (v : String) :
    v ∈ taskIds reg ↔ ∃ t ∈ reg, t.id = v := by
  simp [taskIds, List.mem_map]

theorem mem_phaseIds_iff (reg : List Task) (v : String) (p : TaskPhase) :
    v ∈ phaseIds reg p ↔ ∃ t ∈ reg, t.id = v ∧ t.phase = p := by
  simp only [phaseIds, List.mem_map, List.mem_filter, decide_eq_true_eq]
  constructor
  · rintro ⟨t, ⟨ht, hp⟩, hid⟩
    exact ⟨t, ht, hid, hp⟩
  · rintro ⟨t, ht, hid, hp⟩
    exact ⟨t, ⟨ht, hp⟩, hid⟩

theorem phaseIds_sub_taskIds (reg : List Task) (p : TaskPhase) :
    ∀ v ∈ phaseIds reg p, v ∈ taskIds reg := by
  intro v hv
  obtain ⟨t, ht, hid, _⟩ := (mem_phaseIds_iff reg v p).mp hv
  exact (mem_taskIds_iff reg v).mpr ⟨t, ht, hid⟩

theorem phaseIds_nodup (reg : List Task) (hnodup : (taskIds reg).Nodup) (p : TaskPhase) :
    (phaseIds reg p).Nodup :=
  List.Nodup.sublist (List.Sublist.map Task.id (List.filter_sublist reg)) hnodup

theorem phaseIds_disjoint (reg : List Task) (hnodup : (taskIds reg).Nodup)
    (p q : TaskPhase) (hpq : p ≠ q) (v : String)
    (hp : v ∈ phaseIds reg p) (hq : v ∈ phaseIds reg q) : False := by
  obtain ⟨t1, ht1, hid1, hph1⟩ := (mem_phaseIds_iff reg v p).mp hp
  obtain ⟨t2, ht2, hid2, hph2⟩ := (mem_phaseIds_iff reg v q).mp hq
  have : t1 = t2 := List.inj_on_of_nodup_map hnodup ht1 ht2 (by rw [hid1, hid2])
  subst this
  exact hpq (hph1 ▸ hph2 ▸ rfl)

theorem scopedRank_of_ranked (reg : List Task) (hnodup : (taskIds reg).Nodup)
    (r : String → Nat) (hr : RankedAcyclic reg r) (p : TaskPhase) :
    ScopedRank reg (phaseIds reg p) r := by
  intro v hv d hd hdp
  obtain ⟨t, ht, hid, _⟩ := (mem_phaseIds_iff reg v p).mp hv
  have hdeps : depsOf reg v = t.dependencies := by
    rw [← hid]
    exact depsOf_eq_of_mem reg hnodup t ht
  rw [hdeps] at hd
  have := hr t ht d hd (phaseIds_sub_taskIds reg p d hdp)
  rw [hid] at this
  exact this

theorem phaseIds_cons (reg : List Task) (t : Task) (p : TaskPhase) :
    phaseIds (t :: reg) p =
      if t.phase = p then t.id :: phaseIds reg p else phaseIds reg p := by
  unfold phaseIds
  by_cases h : t.phase = p <;> simp [h]

theorem flatMap_phaseIds_perm (reg : List Task) :
    (TaskPhase.all.flatMap (phaseIds reg)).Perm (taskIds reg) := by
  induction reg with
  | nil => simp [phaseIds, taskIds, TaskPhase.all]
  | cons t reg ih =>
    have hids : taskIds (t :: reg) = t.id :: taskIds reg := rfl
    rw [hids]
    refine List.perm_iff_count.mpr (fun x => ?_)
    have hc := List.perm_iff_count.mp ih x
    simp only [TaskPhase.all, List.flatMap_cons, List.flatMap_nil, List.append_nil] at hc ⊢
    cases hp : t.phase <;>
      simp only [phaseIds_cons, hp, reduceCtorEq, if_true, if_false, reduceIte] <;>
      cases hbx : (t.id == x) <;>
        simp only [List.count_append, List.count_cons, hbx, Bool.false_eq_true,
          if_true, if_false] at hc ⊢ <;>
      omega

/-! Properties of the full execution order across phases. -/

theorem mem_phase_blocks_flatten (reg : List Task) (ps : List TaskPhase) (v : String)
    (h : v ∈ (ps.flatMap (fun p => topologicalSort reg (phaseIds reg p))).flatten) :
    ∃ q ∈ ps, v ∈ (topologicalSort reg (phaseIds reg q)).flatten := by
  rcases List.mem_flatten.mp h with ⟨w, hw, hvw⟩
  rcases List.mem_flatMap.mp hw with ⟨q, hq, hwq⟩
  exact ⟨q, hq, List.mem_flatten.mpr ⟨w, hwq, hvw⟩⟩

theorem phase_blocks_flatten_nodup (reg : List Task) (hnodup : (taskIds reg).Nodup)
    (ps : List TaskPhase) (hps : ps.Nodup) :
    ((ps.flatMap (fun p => topologicalSort reg (phaseIds reg p))).flatten).Nodup := by
  induction ps with
  | nil => simp
  | cons p ps ih =>
    rw [List.flatMap_cons, List.flatten_append, List.nodup_append]
    refine ⟨?_, ih (List.nodup_cons.mp hps).2, ?_⟩
    · have hsub : ∀ w ∈ topologicalSort reg (phaseIds reg p), ∀ x ∈ w, x ∈ phaseIds reg p :=
        topologicalSort_mem_ids reg (phaseIds reg p) (phaseIds_nodup reg hnodup p)
      exact topologicalSort_flatten_nodup reg (phaseIds reg p) (phaseIds_nodup reg hnodup p)
    · intro a ha hb
      obtain ⟨q, hq, hbq⟩ := mem_phase_blocks_flatten reg ps a hb
      have haP : a ∈ phaseIds reg p := by
        rcases List.mem_flatten.mp ha with ⟨w, hw, haw⟩
        exact topologicalSort_mem_ids reg (phaseIds reg p)
          (phaseIds_nodup reg hnodup p) w hw a haw
      have haQ : a ∈ phaseIds reg q := by
        rcases List.mem_flatten.mp hbq with ⟨w, hw, haw⟩
        exact topologicalSort_mem_ids reg (phaseIds reg q)
          (phaseIds_nodup reg hnodup q) w hw a haw
      have hpq : p ≠ q := fun hc => (List.nodup_cons.mp hps).1 (hc ▸ hq)
      exact phaseIds_disjoint reg hnodup p q hpq a haP haQ

theorem calcOrder_flatten_nodup (reg : List Task) (hnodup : (taskIds reg).Nodup) :
    (calculateExecutionOrder reg).flatten.Nodup := by
  unfold calculateExecutionOrder
  exact phase_blocks_flatten_nodup reg hnodup TaskPhase.all (by decide)

theorem calcOrder_flatten_perm (reg : List Task) (hnodup : (taskIds reg).Nodup)
    (r : String → Nat) (hr : RankedAcyclic reg r) :
    (calculateExecutionOrder reg).flatten.Perm (taskIds reg) := by
  unfold calculateExecutionOrder
  have hblocks : ∀ ps : List TaskPhase,
      ((ps.flatMap (fun p => topologicalSort reg (phaseIds reg p))).flatten).Perm
        (ps.flatMap (phaseIds reg)) := by
    intro ps
    induction ps with
    | nil => simp
    | cons p ps ih =>
      rw [List.flatMap_cons, List.flatMap_cons, List.flatten_append]
      exact List.Perm.append
        (topologicalSort_perm reg (phaseIds reg p) (phaseIds_nodup reg hnodup p) r
          (scopedRank_of_ranked reg hnodup r hr p)) ih
  exact (hblocks TaskPhase.all).trans (flatMap_phaseIds_perm reg)



theorem getD_append_cases {α : Type _} (A B : List (List α)) (i : Nat) (x : α)
    (h : x ∈ (A ++ B).getD i []) :
    (i < A.length ∧ x ∈ A.getD i []) ∨ (A.length ≤ i ∧ x ∈ B.getD (i - A.length) []) := by
  rw [List.getD_eq_getElem?_getD, List.getElem?_append] at h
  by_cases hi : i < A.length
  · left
    rw [if_pos hi] at h
    rw [List.getD_eq_getElem?_getD]
    exact ⟨hi, h⟩
  · right
    rw [if_neg hi] at h
    rw [List.getD_eq_getElem?_getD]
    exact ⟨by omega, h⟩

theorem phaseIds_phase_unique (reg : List Task) (hnodup : (taskIds reg).Nodup)
    (v : String) (p q : TaskPhase)
    (hp : v ∈ phaseIds reg p) (hq : v ∈ phaseIds reg q) : p = q := by
  by_contra h
  exact phaseIds_disjoint reg hnodup p q h v hp hq

theorem mem_block_phaseIds (reg : List Task) (hnodup : (taskIds reg).Nodup)
    (p : TaskPhase) (v : String)
    (h : v ∈ (topologicalSort reg (phaseIds reg p)).flatten) : v ∈ phaseIds reg p := by
  rcases List.mem_flatten.mp h with ⟨w, hw, hvw⟩
  exact topologicalSort_mem_ids reg (phaseIds reg p) (phaseIds_nodup reg hnodup p) w hw v hvw

theorem phase_blocks_edge_lt (reg : List Task) (hnodup : (taskIds reg).Nodup)
    (ps : List TaskPhase)
    (hps : List.Pairwise (fun a b => TaskPhase.idx a < TaskPhase.idx b) ps)
    (u v : String) (pu pv : TaskPhase)
    (hpu : u ∈ phaseIds reg pu) (hpv : v ∈ phaseIds reg pv)
    (hmono : TaskPhase.idx pu ≤ TaskPhase.idx pv)
    (hdep : u ∈ depsOf reg v) (i j : Nat)
    (hu : u ∈ (ps.flatMap (fun p => topologicalSort reg (phaseIds reg p))).getD i [])
    (hv : v ∈ (ps.flatMap (fun p => topologicalSort reg (phaseIds reg p))).getD j []) :
    i < j := by
  induction ps generalizing i j with
  | nil => simp at hu
  | cons p ps ih =>
    rw [List.flatMap_cons] at hu hv
    set Bp := topologicalSort reg (phaseIds reg p) with hBp
    rcases getD_append_cases Bp _ i u hu with ⟨hilt, hui⟩ | ⟨hige, hui⟩
    · have huP : u ∈ phaseIds reg p :=
        mem_block_phaseIds reg hnodup p u (mem_flatten_of_getD Bp i u hui)
      have hpeq : p = pu := phaseIds_phase_unique reg hnodup u p pu huP hpu
      rcases getD_append_cases Bp _ j v hv with ⟨hjlt, hvj⟩ | ⟨hjge, hvj⟩
      · have hvP : v ∈ phaseIds reg p :=
          mem_block_phaseIds reg hnodup p v (mem_flatten_of_getD Bp j v hvj)
        exact topologicalSort_edge_lt reg (phaseIds reg p) (phaseIds_nodup reg hnodup p)
          u v i j hui hvj hdep huP
      · omega
    · have huRest : ∃ q ∈ ps, u ∈ (topologicalSort reg (phaseIds reg q)).flatten :=
        mem_phase_blocks_flatten reg ps u
          (mem_flatten_of_getD _ (i - Bp.length) u hui)
      obtain ⟨q, hq, huq⟩ := huRest
      have huQ : u ∈ phaseIds reg q := mem_block_phaseIds reg hnodup q u huq
      have hqeq : q = pu := phaseIds_phase_unique reg hnodup u q pu huQ hpu
      have hpq : TaskPhase.idx p < TaskPhase.idx q :=
        (List.pairwise_cons.mp hps).1 q hq
      rcases getD_append_cases Bp _ j v hv with ⟨hjlt, hvj⟩ | ⟨hjge, hvj⟩
      · have hvP : v ∈ phaseIds reg p :=
          mem_block_phaseIds reg hnodup p v (mem_flatten_of_getD Bp j v hvj)
        have hpeq : p = pv := phaseIds_phase_unique reg hnodup v p pv hvP hpv
        subst hqeq hpeq
        omega
      · have := ih (List.pairwise_cons.mp hps).2 (i - Bp.length) (j - Bp.length) hui hvj
        omega

theorem calcOrder_edge_lt (reg : List Task) (hnodup : (taskIds reg).Nodup)
    (u v : String) (pu pv : TaskPhase)
    (hpu : u ∈ phaseIds reg pu) (hpv : v ∈ phaseIds reg pv)
    (hmono : TaskPhase.idx pu ≤ TaskPhase.idx pv)
    (hdep : u ∈ depsOf reg v) (i j : Nat)
    (hu : u ∈ (calculateExecutionOrder reg).getD i [])
    (hv : v ∈ (calculateExecutionOrder reg).getD j []) : i < j := by
  exact phase_blocks_edge_lt reg hnodup TaskPhase.all (by decide) u v pu pv hpu hpv
    hmono hdep i j hu hv



/-! Frame lemmas for the state primitives of the execution engine. -/

theorem taskIds_updateTask (reg : List Task) (tid : String) (f : Task → Task)
    (hf : ∀ t, (f t).id = t.id) : taskIds (updateTask reg tid f) = taskIds reg := by
  unfold taskIds updateTask
  rw [List.map_map]
  refine List.map_congr_left (fun t _ => ?_)
  by_cases h : t.id = tid <;> simp [h, hf]

theorem findTask_updateTask_ne (reg : List Task) (tid : String) (f : Task → Task)
    (hf : ∀ t, (f t).id = t.id) (x : String) (hx : x ≠ tid) :
    findTask (updateTask reg tid f) x = findTask reg x := by
  unfold findTask updateTask
  induction reg with
  | nil => rfl
  | cons t reg ih =>
    simp only [List.map_cons]
    by_cases h : t.id = tid
    · rw [if_pos h]
      have h1 : decide ((f t).id = x) = false := by
        rw [hf t, h]
        exact decide_eq_false (fun hc => hx hc.symm)
      have h2 : decide (t.id = x) = false := by
        rw [h]
        exact decide_eq_false (fun hc => hx hc.symm)
      simp only [List.find?_cons, h1, h2]
      exact ih
    · rw [if_neg h]
      cases hd : decide (t.id = x) <;> simp only [List.find?_cons, hd] <;> exact ih

theorem findTask_updateTask_self (reg : List Task) (tid : String) (f : Task → Task)
    (hf : ∀ t, (f t).id = t.id) :
    findTask (updateTask reg tid f) tid = (findTask reg tid).map f := by
  unfold findTask updateTask
  induction reg with
  | nil => rfl
  | cons t reg ih =>
    simp only [List.map_cons]
    by_cases h : t.id = tid
    · rw [if_pos h]
      have h1 : decide ((f t).id = tid) = true := by
        rw [hf t, h]
        exact decide_eq_true rfl
      have h2 : decide (t.id = tid) = true := by
        rw [h]
        exact decide_eq_true rfl
      simp only [List.find?_cons, h1, h2]
      rfl
    · rw [if_neg h]
      have h2 : decide (t.id = tid) = false := decide_eq_false h
      simp only [List.find?_cons, h2]
      exact ih

theorem findTask_modifyTask (st : TaskMeshState) (tid : String) (f : Task → Task)
    (hf : ∀ t, (f t).id = t.id) (x : String) :
    findTask (st.modifyTask tid f).tasks x =
      if x = tid then (findTask st.tasks tid).map f else findTask st.tasks x := by
  by_cases h : x = tid
  · rw [if_pos h, h]
    exact findTask_updateTask_self st.tasks tid f hf
  · rw [if_neg h]
    exact findTask_updateTask_ne st.tasks tid f hf x h

theorem mem_addId (s : List String) (tid x : String) :
    x ∈ addId s tid ↔ x ∈ s ∨ x = tid := by
  unfold addId
  by_cases h : tid ∈ s
  · simp only [h, if_true]
    constructor
    · exact Or.inl
    · intro hx
      rcases hx with hx | hx
      · exact hx
      · rw [hx]; exact h
  · simp [h, List.mem_append]

theorem nodup_addId (s : List String) (tid : String) (h : s.Nodup) :
    (addId s tid).Nodup := by
  unfold addId
  by_cases hm : tid ∈ s
  · simpa [hm] using h
  · simp only [hm, if_false]
    rw [List.nodup_append]
    exact ⟨h, List.nodup_singleton tid, by
      intro a ha hb
      simp only [List.mem_singleton] at hb
      subst hb
      exact hm ha⟩

theorem removeId_addId (s : List String) (tid : String) :
    removeId (addId s tid) tid = removeId s tid := by
  unfold removeId addId
  by_cases h : tid ∈ s
  · simp [h]
  · simp [h, List.filter_append]

theorem removeId_nil (tid : String) : removeId [] tid = [] := rfl

theorem updateTask_length (reg : List Task) (tid : String) (f : Task → Task) :
    (updateTask reg tid f).length = reg.length := by
  unfold updateTask
  exact List.length_map _ _

theorem blockTask_id (t : Task) : (blockTask t).id = t.id := rfl

theorem blockTask_comp (x : Option Task) :
    Option.map blockTask (Option.map blockTask x) = Option.map blockTask x := by
  cases x <;> rfl



theorem depsOf_eq_of_findTask (reg : List Task) (tid : String) (t : Task)
    (h : findTask reg tid = some t) : depsOf reg tid = t.dependencies := by
  simp [depsOf, h]

theorem taskIds_modifyTask (st : TaskMeshState) (tid : String) (f : Task → Task)
    (hf : ∀ t, (f t).id = t.id) :
    taskIds (st.modifyTask tid f).tasks = taskIds st.tasks :=
  taskIds_updateTask st.tasks tid f hf

theorem executeTaskStart_found (st : TaskMeshState) (tid : String) (t : Task)
    (hft : findTask st.tasks tid = some t) :
    findTask (executeTaskStart st tid).tasks tid =
      some { t with status := TaskStatus.running, startedAt := some st.clock } := by
  unfold executeTaskStart
  have h := findTask_modifyTask st tid
    (fun u => { u with status := TaskStatus.running, startedAt := some st.clock })
    (fun u => rfl) tid
  rw [if_pos rfl] at h
  rw [h, hft]
  rfl

theorem executeTaskStart_ne (st : TaskMeshState) (tid x : String) (hx : x ≠ tid) :
    findTask (executeTaskStart st tid).tasks x = findTask st.tasks x := by
  unfold executeTaskStart
  have h := findTask_modifyTask st tid
    (fun u => { u with status := TaskStatus.running, startedAt := some st.clock })
    (fun u => rfl) x
  rw [if_neg hx] at h
  exact h

theorem executeTaskFinish_eq (st : TaskMeshState) (tid : String) (t : Task)
    (hft : findTask st.tasks tid = some t) :
    executeTaskFinish st tid =
      match handlerOutcome t with
      | Except.ok r =>
        { tasks := updateTask st.tasks tid (fun u =>
            { u with status := TaskStatus.completed, result := some r,
                     completedAt := some st.clock }),
          completedTasks := addId st.completedTasks tid,
          failedTasks := st.failedTasks,
          runningTasks := removeId st.runningTasks tid,
          executionOrder := st.executionOrder,
          clock := st.clock + 1 }
      | Except.error e =>
        { tasks := updateTask st.tasks tid (fun u =>
            { u with status := TaskStatus.failed, error := some e,
                     completedAt := some st.clock }),
          completedTasks := st.completedTasks,
          failedTasks := addId st.failedTasks tid,
          runningTasks := removeId st.runningTasks tid,
          executionOrder := st.executionOrder,
          clock := st.clock + 1 } := by
  unfold executeTaskFinish
  rw [hft]
  rfl

theorem executeTaskFinish_none (st : TaskMeshState) (tid : String)
    (hft : findTask st.tasks tid = none) : executeTaskFinish st tid = st := by
  unfold executeTaskFinish
  rw [hft]

theorem executeTask_found (st : TaskMeshState) (tid : String) (t : Task)
    (hft : findTask st.tasks tid = some t) :
    (∀ x, x ≠ tid → findTask (executeTask st tid).tasks x = findTask st.tasks x) ∧
    (executeTask st tid).executionOrder = st.executionOrder ∧
    (executeTask st tid).runningTasks = removeId st.runningTasks tid ∧
    (executeTask st tid).clock = st.clock + 2 ∧
    (match handlerOutcome t with
     | Except.ok r =>
        findTask (executeTask st tid).tasks tid =
          some { t with status := TaskStatus.completed, startedAt := some st.clock,
                        result := some r, completedAt := some (st.clock + 1) } ∧
        (executeTask st tid).completedTasks = addId st.completedTasks tid ∧
        (executeTask st tid).failedTasks = st.failedTasks
     | Except.error e =>
        findTask (executeTask st tid).tasks tid =
          some { t with status := TaskStatus.failed, startedAt := some st.clock,
                        error := some e, completedAt := some (st.clock + 1) } ∧
        (executeTask st tid).failedTasks = addId st.failedTasks tid ∧
        (executeTask st tid).completedTasks = st.completedTasks) := by
  have h1 := executeTaskStart_found st tid t hft
  have hout :
      handlerOutcome { t with status := TaskStatus.running, startedAt := some st.clock } =
        handlerOutcome t := rfl
  have hexec : executeTask st tid = executeTaskFinish (executeTaskStart st tid) tid := rfl
  have heq := executeTaskFinish_eq (executeTaskStart st tid) tid
    { t with status := TaskStatus.running, startedAt := some st.clock } h1
  rw [hout] at heq
  cases hoc : handlerOutcome t with
  | ok r =>
    rw [hoc] at heq
    have htasks : (executeTask st tid).tasks =
        updateTask (executeTaskStart st tid).tasks tid
          (fun u => { u with status := TaskStatus.completed, result := some r,
                             completedAt := some (executeTaskStart st tid).clock }) := by
      rw [hexec, heq]
      try rfl
    have hcomp : (executeTask st tid).completedTasks = addId st.completedTasks tid := by
      rw [hexec, heq]
      try rfl
    have hfail : (executeTask st tid).failedTasks = st.failedTasks := by
      rw [hexec, heq]
      try rfl
    have hrun : (executeTask st tid).runningTasks =
        removeId (addId st.runningTasks tid) tid := by
      rw [hexec, heq]
      try rfl
    have hord : (executeTask st tid).executionOrder = st.executionOrder := by
      rw [hexec, heq]
      try rfl
    have hclk : (executeTask st tid).clock = st.clock + 2 := by
      rw [hexec, heq]
      try rfl
    refine ⟨?_, hord, ?_, hclk, ?_, hcomp, hfail⟩
    · intro x hx
      rw [htasks]
      rw [findTask_updateTask_ne _ tid
        (fun u => { u with status := TaskStatus.completed, result := some r,
                             completedAt := some (executeTaskStart st tid).clock })
        (fun u => rfl) x hx]
      exact executeTaskStart_ne st tid x hx
    · rw [hrun, removeId_addId]
    · rw [htasks]
      rw [findTask_updateTask_self _ tid
        (fun u => { u with status := TaskStatus.completed, result := some r,
                             completedAt := some (executeTaskStart st tid).clock })
        (fun u => rfl)]
      rw [h1]
      rfl
  | error e =>
    rw [hoc] at heq
    have htasks : (executeTask st tid).tasks =
        updateTask (executeTaskStart st tid).tasks tid
          (fun u => { u with status := TaskStatus.failed, error := some e,
                             completedAt := some (executeTaskStart st tid).clock }) := by
      rw [hexec, heq]
      try rfl
    have hcomp : (executeTask st tid).completedTasks = st.completedTasks := by
      rw [hexec, heq]
      try rfl
    have hfail : (executeTask st tid).failedTasks = addId st.failedTasks tid := by
      rw [hexec, heq]
      try rfl
    have hrun : (executeTask st tid).runningTasks =
        removeId (addId st.runningTasks tid) tid := by
      rw [hexec, heq]
      try rfl
    have hord : (executeTask st tid).executionOrder = st.executionOrder := by
      rw [hexec, heq]
      try rfl
    have hclk : (executeTask st tid).clock = st.clock + 2 := by
      rw [hexec, heq]
      try rfl
    refine ⟨?_, hord, ?_, hclk, ?_, hfail, hcomp⟩
    · intro x hx
      rw [htasks]
      rw [findTask_updateTask_ne _ tid
        (fun u => { u with status := TaskStatus.failed, error := some e,
                             completedAt := some (executeTaskStart st tid).clock })
        (fun u => rfl) x hx]
      exact executeTaskStart_ne st tid x hx
    · rw [hrun, removeId_addId]
    · rw [htasks]
      rw [findTask_updateTask_self _ tid
        (fun u => { u with status := TaskStatus.failed, error := some e,
                             completedAt := some (executeTaskStart st tid).clock })
        (fun u => rfl)]
      rw [h1]
      rfl

theorem taskIds_executeTask (st : TaskMeshState) (tid : String) :
    taskIds (executeTask st tid).tasks = taskIds st.tasks := by
  have hexec : executeTask st tid = executeTaskFinish (executeTaskStart st tid) tid := rfl
  have hstart : taskIds (executeTaskStart st tid).tasks = taskIds st.tasks :=
    taskIds_modifyTask st tid _ (fun u => rfl)
  rw [hexec]
  cases hft : findTask (executeTaskStart st tid).tasks tid with
  | none =>
    rw [executeTaskFinish_none _ tid hft]
    exact hstart
  | some t1 =>
    have heq := executeTaskFinish_eq (executeTaskStart st tid) tid t1 hft
    cases hoc : handlerOutcome t1 with
    | ok r =>
      rw [hoc] at heq
      have htasks : (executeTaskFinish (executeTaskStart st tid) tid).tasks =
          updateTask (executeTaskStart st tid).tasks tid
            (fun u => { u with status := TaskStatus.completed, result := some r,
                               completedAt := some (executeTaskStart st tid).clock }) := by
        rw [heq]
        try rfl
      rw [htasks]
      rw [taskIds_updateTask _ tid
        (fun u => { u with status := TaskStatus.completed, result := some r,
                               completedAt := some (executeTaskStart st tid).clock })
        (fun u => rfl)]
      exact hstart
    | error e =>
      rw [hoc] at heq
      have htasks : (executeTaskFinish (executeTaskStart st tid) tid).tasks =
          updateTask (executeTaskStart st tid).tasks tid
            (fun u => { u with status := TaskStatus.failed, error := some e,
                               completedAt := some (executeTaskStart st tid).clock }) := by
        rw [heq]
        try rfl
      rw [htasks]
      rw [taskIds_updateTask _ tid
        (fun u => { u with status := TaskStatus.failed, error := some e,
                               completedAt := some (executeTaskStart st tid).clock })
        (fun u => rfl)]
      exact hstart


theorem depsOf_modifyTask (st : TaskMeshState) (tid : String) (f : Task → Task)
    (hf : ∀ t, (f t).id = t.id) (hd : ∀ t, (f t).dependencies = t.dependencies)
    (x : String) : depsOf (st.modifyTask tid f).tasks x = depsOf st.tasks x := by
  unfold depsOf
  rw [findTask_modifyTask st tid f hf x]
  by_cases h : x = tid
  · rw [if_pos h, h]
    cases findTask st.tasks tid <;> simp [hd]
  · rw [if_neg h]

theorem hasFailedDep_modifyTask (st : TaskMeshState) (tid : String) (f : Task → Task)
    (hf : ∀ t, (f t).id = t.id) (hd : ∀ t, (f t).dependencies = t.dependencies)
    (x : String) : hasFailedDep (st.modifyTask tid f) x = hasFailedDep st x := by
  unfold hasFailedDep
  rw [depsOf_modifyTask st tid f hf hd x]
  rfl

theorem dispatchFold_spec (W : List String) :
    ∀ (s : TaskMeshState) (acc : List String),
    W.Nodup →
    (∀ tid ∈ W, ∃ t, findTask s.tasks tid = some t ∧ t.status ≠ TaskStatus.completed) →
    ((W.foldl dispatchStep (s, acc)).2 =
        acc ++ W.filter (fun tid => !(hasFailedDep s tid))) ∧
    ((W.foldl dispatchStep (s, acc)).1.completedTasks = s.completedTasks) ∧
    ((W.foldl dispatchStep (s, acc)).1.failedTasks = s.failedTasks) ∧
    ((W.foldl dispatchStep (s, acc)).1.runningTasks = s.runningTasks) ∧
    ((W.foldl dispatchStep (s, acc)).1.clock = s.clock) ∧
    ((W.foldl dispatchStep (s, acc)).1.executionOrder = s.executionOrder) ∧
    (taskIds (W.foldl dispatchStep (s, acc)).1.tasks = taskIds s.tasks) ∧
    (∀ x, findTask (W.foldl dispatchStep (s, acc)).1.tasks x =
      if x ∈ W ∧ hasFailedDep s x = true then
        (findTask s.tasks x).map blockTask
      else findTask s.tasks x) := by
  induction W with
  | nil =>
    intro s acc _ _
    refine ⟨by simp, rfl, rfl, rfl, rfl, rfl, rfl, ?_⟩
    intro x
    rw [if_neg (by simp)]
    rfl
  | cons tid W ih =>
    intro s acc hnd hpres
    obtain ⟨t, hft, hst⟩ := hpres tid (List.mem_cons_self tid W)
    have htid : tid ∉ W := (List.nodup_cons.mp hnd).1
    have hndW : W.Nodup := (List.nodup_cons.mp hnd).2
    have hfd : hasFailedDep s tid =
        t.dependencies.any (fun d => decide (d ∈ s.failedTasks)) := by
      unfold hasFailedDep
      rw [depsOf_eq_of_findTask s.tasks tid t hft]
    have hfold : (tid :: W).foldl dispatchStep (s, acc) =
        W.foldl dispatchStep (dispatchStep (s, acc) tid) := rfl
    cases hb : t.dependencies.any (fun d => decide (d ∈ s.failedTasks)) with
    | true =>
      have hstep : dispatchStep (s, acc) tid = (s.modifyTask tid blockTask, acc) := by
        unfold dispatchStep
        rw [hft]
        simp only [hb, if_true]
      have hfdt : hasFailedDep s tid = true := by rw [hfd, hb]
      have hpres2 : ∀ x ∈ W, ∃ u, findTask (s.modifyTask tid blockTask).tasks x = some u ∧
          u.status ≠ TaskStatus.completed := by
        intro x hx
        obtain ⟨u, hfu, hsu⟩ := hpres x (List.mem_cons_of_mem tid hx)
        refine ⟨u, ?_, hsu⟩
        rw [findTask_modifyTask s tid blockTask (fun u => rfl) x,
          if_neg (fun hc : x = tid => htid (hc ▸ hx))]
        exact hfu
      obtain ⟨ih1, ih2, ih3, ih4, ih5, ih6, ih6b, ih7⟩ :=
        ih (s.modifyTask tid blockTask) acc hndW hpres2
      have hfd2 : ∀ x, hasFailedDep (s.modifyTask tid blockTask) x = hasFailedDep s x :=
        hasFailedDep_modifyTask s tid blockTask (fun u => rfl) (fun u => rfl)
      rw [hfold, hstep]
      refine ⟨?_, ih2, ih3, ih4, ih5, ih6, by
        rw [ih6b]
        exact taskIds_modifyTask s tid blockTask (fun u => rfl), ?_⟩
      · rw [ih1]
        have hfilter : W.filter (fun x => !(hasFailedDep (s.modifyTask tid blockTask) x)) =
            W.filter (fun x => !(hasFailedDep s x)) :=
          List.filter_congr (fun x _ => by rw [hfd2 x])
        rw [hfilter, List.filter_cons, hfdt]
        simp
      · intro x
        rw [ih7 x]
        have hmod := findTask_modifyTask s tid blockTask (fun u => rfl) x
        by_cases hx : x = tid
        · subst hx
          rw [if_neg (fun hc : x ∈ W ∧ _ => htid hc.1)]
          rw [if_pos ⟨List.mem_cons_self x W, hfdt⟩]
          rw [hmod, if_pos rfl]
        · have hne : findTask (s.modifyTask tid blockTask).tasks x = findTask s.tasks x := by
            rw [hmod, if_neg hx]
          rw [hne, hfd2 x]
          by_cases hc : x ∈ W ∧ hasFailedDep s x = true
          · rw [if_pos hc, if_pos ⟨List.mem_cons_of_mem tid hc.1, hc.2⟩]
          · rw [if_neg hc, if_neg (fun hc2 : x ∈ tid :: W ∧ _ => by
              rcases List.mem_cons.mp hc2.1 with h | h
              · exact hx h
              · exact hc ⟨h, hc2.2⟩)]
    | false =>
      have hstep : dispatchStep (s, acc) tid = (s, acc ++ [tid]) := by
        unfold dispatchStep
        rw [hft]
        simp only [hb, Bool.false_eq_true, if_false]
        rw [if_neg hst]
      have hfdt : hasFailedDep s tid = false := by rw [hfd, hb]
      have hpres2 : ∀ x ∈ W, ∃ u, findTask s.tasks x = some u ∧
          u.status ≠ TaskStatus.completed :=
        fun x hx => hpres x (List.mem_cons_of_mem tid hx)
      obtain ⟨ih1, ih2, ih3, ih4, ih5, ih6, ih6b, ih7⟩ := ih s (acc ++ [tid]) hndW hpres2
      rw [hfold, hstep]
      refine ⟨?_, ih2, ih3, ih4, ih5, ih6, ih6b, ?_⟩
      · rw [ih1, List.filter_cons, hfdt]
        simp
      · intro x
        rw [ih7 x]
        by_cases hc : x ∈ W ∧ hasFailedDep s x = true
        · rw [if_pos hc, if_pos ⟨List.mem_cons_of_mem tid hc.1, hc.2⟩]
        · rw [if_neg hc, if_neg (fun hc2 : x ∈ tid :: W ∧ hasFailedDep s x = true => by
            rcases List.mem_cons.mp hc2.1 with h | h
            · have hcontra := hc2.2
              rw [h, hfdt] at hcontra
              exact Bool.noConfusion hcontra
            · exact hc ⟨h, hc2.2⟩)]



theorem execFold_spec (R : List String) :
    ∀ (s : TaskMeshState),
    R.Nodup →
    (∀ tid ∈ R, ∃ t, findTask s.tasks tid = some t) →
    (∀ x, x ∉ R → findTask (R.foldl executeTask s).tasks x = findTask s.tasks x) ∧
    (∀ tid ∈ R, ∀ t, findTask s.tasks tid = some t →
      (∃ c1 c2 r, handlerOutcome t = Except.ok r ∧
        findTask (R.foldl executeTask s).tasks tid =
          some { t with status := TaskStatus.completed, startedAt := some c1,
                        result := some r, completedAt := some c2 }) ∨
      (∃ c1 c2 e, handlerOutcome t = Except.error e ∧
        findTask (R.foldl executeTask s).tasks tid =
          some { t with status := TaskStatus.failed, startedAt := some c1,
                        error := some e, completedAt := some c2 })) ∧
    (∀ x, x ∈ (R.foldl executeTask s).completedTasks ↔ x ∈ s.completedTasks ∨
      (x ∈ R ∧ ∃ t, findTask s.tasks x = some t ∧ ∃ r, handlerOutcome t = Except.ok r)) ∧
    (∀ x, x ∈ (R.foldl executeTask s).failedTasks ↔ x ∈ s.failedTasks ∨
      (x ∈ R ∧ ∃ t, findTask s.tasks x = some t ∧ ∃ e, handlerOutcome t = Except.error e)) ∧
    (s.completedTasks.Nodup → (R.foldl executeTask s).completedTasks.Nodup) ∧
    (s.failedTasks.Nodup → (R.foldl executeTask s).failedTasks.Nodup) ∧
    (s.runningTasks = [] → (R.foldl executeTask s).runningTasks = []) ∧
    ((R.foldl executeTask s).executionOrder = s.executionOrder) := by
  induction R with
  | nil =>
    intro s _ _
    refine ⟨fun x _ => rfl, fun tid htid => absurd htid (by simp), ?_, ?_,
      fun h => h, fun h => h, fun h => h, rfl⟩
    · intro x
      simp
    · intro x
      simp
  | cons tid R ih =>
    intro s hnd hpres
    obtain ⟨t, hft⟩ := hpres tid (List.mem_cons_self tid R)
    have htid : tid ∉ R := (List.nodup_cons.mp hnd).1
    have hndR : R.Nodup := (List.nodup_cons.mp hnd).2
    obtain ⟨e1, e2, e3, e4, e5⟩ := executeTask_found s tid t hft
    have hfold : (tid :: R).foldl executeTask s = R.foldl executeTask (executeTask s tid) :=
      rfl
    have hpres2 : ∀ x ∈ R, ∃ u, findTask (executeTask s tid).tasks x = some u := by
      intro x hx
      obtain ⟨u, hfu⟩ := hpres x (List.mem_cons_of_mem tid hx)
      exact ⟨u, by rw [e1 x (fun hc => htid (hc ▸ hx))]; exact hfu⟩
    obtain ⟨ih1, ih2, ih3, ih4, ih5, ih6, ih7, ih8⟩ := ih (executeTask s tid) hndR hpres2
    have hne : ∀ x, x ≠ tid → x ∉ R →
        findTask ((tid :: R).foldl executeTask s).tasks x = findTask s.tasks x := by
      intro x hx hxR
      rw [hfold, ih1 x hxR, e1 x hx]
    rw [hfold]
    cases hoc : handlerOutcome t with
    | ok r =>
      rw [hoc] at e5
      obtain ⟨f1, f2, f3⟩ := e5
      have hftid : findTask (R.foldl executeTask (executeTask s tid)).tasks tid =
          some { t with status := TaskStatus.completed, startedAt := some s.clock,
                        result := some r, completedAt := some (s.clock + 1) } := by
        rw [ih1 tid htid, f1]
      refine ⟨?_, ?_, ?_, ?_, ?_, ?_, ?_, by rw [ih8, e2]⟩
      · intro x hx
        exact hne x (fun hc => hx (hc ▸ List.mem_cons_self tid R))
          (fun hc => hx (List.mem_cons_of_mem tid hc))
      · intro tid2 htid2 t2 hft2
        rcases List.mem_cons.mp htid2 with h | h
        · subst h
          rw [hft] at hft2
          injection hft2 with ht2
          subst ht2
          left
          exact ⟨s.clock, s.clock + 1, r, hoc, hftid⟩
        · have hne2 : findTask (executeTask s tid).tasks tid2 = findTask s.tasks tid2 :=
            e1 tid2 (fun hc => htid (hc ▸ h))
          exact ih2 tid2 h t2 (by rw [hne2]; exact hft2)
      · intro x
        rw [ih3 x, f2, mem_addId]
        constructor
        · intro hcase
          rcases hcase with (hx | hx) | hx
          · exact Or.inl hx
          · subst hx
            exact Or.inr ⟨List.mem_cons_self x R, t, hft, r, hoc⟩
          · obtain ⟨hxR, u, hfu, rr, hocu⟩ := hx
            have : findTask s.tasks x = some u := by
              rw [← e1 x (fun hc => htid (hc ▸ hxR))]
              exact hfu
            exact Or.inr ⟨List.mem_cons_of_mem tid hxR, u, this, rr, hocu⟩
        · intro hcase
          rcases hcase with hx | ⟨hxm, u, hfu, rr, hocu⟩
          · exact Or.inl (Or.inl hx)
          · rcases List.mem_cons.mp hxm with h | h
            · subst h
              exact Or.inl (Or.inr rfl)
            · right
              refine ⟨h, u, ?_, rr, hocu⟩
              rw [e1 x (fun hc => htid (hc ▸ h))]
              exact hfu
      · intro x
        rw [ih4 x, f3]
        constructor
        · intro hcase
          rcases hcase with hx | ⟨hxR, u, hfu, ee, hocu⟩
          · exact Or.inl hx
          · have : findTask s.tasks x = some u := by
              rw [← e1 x (fun hc => htid (hc ▸ hxR))]
              exact hfu
            exact Or.inr ⟨List.mem_cons_of_mem tid hxR, u, this, ee, hocu⟩
        · intro hcase
          rcases hcase with hx | ⟨hxm, u, hfu, ee, hocu⟩
          · exact Or.inl hx
          · rcases List.mem_cons.mp hxm with h | h
            · subst h
              rw [hft] at hfu
              injection hfu with hu
              subst hu
              rw [hoc] at hocu
              exact absurd hocu (by simp)
            · right
              refine ⟨h, u, ?_, ee, hocu⟩
              rw [e1 x (fun hc => htid (hc ▸ h))]
              exact hfu
      · intro hn
        refine ih5 ?_
        rw [f2]
        exact nodup_addId _ tid hn
      · intro hn
        refine ih6 ?_
        rw [f3]
        exact hn
      · intro hn
        refine ih7 ?_
        rw [e3, hn]
        rfl
    | error e =>
      rw [hoc] at e5
      obtain ⟨f1, f2, f3⟩ := e5
      have hftid : findTask (R.foldl executeTask (executeTask s tid)).tasks tid =
          some { t with status := TaskStatus.failed, startedAt := some s.clock,
                        error := some e, completedAt := some (s.clock + 1) } := by
        rw [ih1 tid htid, f1]
      refine ⟨?_, ?_, ?_, ?_, ?_, ?_, ?_, by rw [ih8, e2]⟩
      · intro x hx
        exact hne x (fun hc => hx (hc ▸ List.mem_cons_self tid R))
          (fun hc => hx (List.mem_cons_of_mem tid hc))
      · intro tid2 htid2 t2 hft2
        rcases List.mem_cons.mp htid2 with h | h
        · subst h
          rw [hft] at hft2
          injection hft2 with ht2
          subst ht2
          right
          exact ⟨s.clock, s.clock + 1, e, hoc, hftid⟩
        · have hne2 : findTask (executeTask s tid).tasks tid2 = findTask s.tasks tid2 :=
            e1 tid2 (fun hc => htid (hc ▸ h))
          exact ih2 tid2 h t2 (by rw [hne2]; exact hft2)
      · intro x
        rw [ih3 x, f3]
        constructor
        · intro hcase
          rcases hcase with hx | ⟨hxR, u, hfu, rr, hocu⟩
          · exact Or.inl hx
          · have : findTask s.tasks x = some u := by
              rw [← e1 x (fun hc => htid (hc ▸ hxR))]
              exact hfu
            exact Or.inr ⟨List.mem_cons_of_mem tid hxR, u, this, rr, hocu⟩
        · intro hcase
          rcases hcase with hx | ⟨hxm, u, hfu, rr, hocu⟩
          · exact Or.inl hx
          · rcases List.mem_cons.mp hxm with h | h
            · subst h
              rw [hft] at hfu
              injection hfu with hu
              subst hu
              rw [hoc] at hocu
              exact absurd hocu (by simp)
            · right
              refine ⟨h, u, ?_, rr, hocu⟩
              rw [e1 x (fun hc => htid (hc ▸ h))]
              exact hfu
      · intro x
        rw [ih4 x, f2, mem_addId]
        constructor
        · intro hcase
          rcases hcase with (hx | hx) | hx
          · exact Or.inl hx
          · subst hx
            exact Or.inr ⟨List.mem_cons_self x R, t, hft, e, hoc⟩
          · obtain ⟨hxR, u, hfu, ee, hocu⟩ := hx
            have : findTask s.tasks x = some u := by
              rw [← e1 x (fun hc => htid (hc ▸ hxR))]
              exact hfu
            exact Or.inr ⟨List.mem_cons_of_mem tid hxR, u, this, ee, hocu⟩
        · intro hcase
          rcases hcase with hx | ⟨hxm, u, hfu, ee, hocu⟩
          · exact Or.inl (Or.inl hx)
          · rcases List.mem_cons.mp hxm with h | h
            · subst h
              exact Or.inl (Or.inr rfl)
            · right
              refine ⟨h, u, ?_, ee, hocu⟩
              rw [e1 x (fun hc => htid (hc ▸ h))]
              exact hfu
      · intro hn
        refine ih5 ?_
        rw [f3]
        exact hn
      · intro hn
        refine ih6 ?_
        rw [f2]
        exact nodup_addId _ tid hn
      · intro hn
        refine ih7 ?_
        rw [e3, hn]
        rfl

theorem taskIds_execFold (R : List String) :
    ∀ s : TaskMeshState, taskIds ((R.foldl executeTask s)).tasks = taskIds s.tasks := by
  induction R with
  | nil => intro s; rfl
  | cons tid R ih =>
    intro s
    have hfold : (tid :: R).foldl executeTask s = R.foldl executeTask (executeTask s tid) :=
      rfl
    rw [hfold, ih (executeTask s tid), taskIds_executeTask]



theorem blockFold_spec (B : List String) :
    ∀ s : TaskMeshState,
    (∀ x, findTask ((B.foldl (fun s tid => s.modifyTask tid blockTask) s)).tasks x =
      if x ∈ B then (findTask s.tasks x).map blockTask else findTask s.tasks x) ∧
    ((B.foldl (fun s tid => s.modifyTask tid blockTask) s).completedTasks =
      s.completedTasks) ∧
    ((B.foldl (fun s tid => s.modifyTask tid blockTask) s).failedTasks = s.failedTasks) ∧
    ((B.foldl (fun s tid => s.modifyTask tid blockTask) s).runningTasks = s.runningTasks) ∧
    ((B.foldl (fun s tid => s.modifyTask tid blockTask) s).executionOrder =
      s.executionOrder) ∧
    (taskIds (B.foldl (fun s tid => s.modifyTask tid blockTask) s).tasks =
      taskIds s.tasks) := by
  induction B with
  | nil =>
    intro s
    refine ⟨?_, rfl, rfl, rfl, rfl, rfl⟩
    intro x
    rw [if_neg (by simp)]
    rfl
  | cons b B ih =>
    intro s
    have hfold : (b :: B).foldl (fun s tid => s.modifyTask tid blockTask) s =
        B.foldl (fun s tid => s.modifyTask tid blockTask) (s.modifyTask b blockTask) := rfl
    obtain ⟨ih1, ih2, ih3, ih4, ih5, ih6⟩ := ih (s.modifyTask b blockTask)
    rw [hfold]
    have hmod := findTask_modifyTask s b blockTask (fun u => rfl)
    refine ⟨?_, ih2, ih3, ih4, ih5, by
      rw [ih6]
      exact taskIds_modifyTask s b blockTask (fun u => rfl)⟩
    intro x
    rw [ih1 x, hmod x]
    by_cases hxb : x = b
    · subst hxb
      rw [if_pos rfl, if_pos (List.mem_cons_self x B)]
      by_cases hxB : x ∈ B
      · rw [if_pos hxB, blockTask_comp]
      · rw [if_neg hxB]
    · rw [if_neg hxb]
      by_cases hxB : x ∈ B
      · rw [if_pos hxB, if_pos (List.mem_cons_of_mem b hxB)]
      · rw [if_neg hxB, if_neg (fun hc => by
          rcases List.mem_cons.mp hc with h | h
          · exact hxb h
          · exact hxB h)]

theorem mem_getBlockedTasks (st : TaskMeshState) (x : String)
    (hnd : (taskIds st.tasks).Nodup) :
    x ∈ getBlockedTasks st ↔ ∃ t, findTask st.tasks x = some t ∧
      t.status = TaskStatus.pending ∧
      t.dependencies.any (fun d => decide (d ∈ st.failedTasks)) = true := by
  unfold getBlockedTasks
  constructor
  · intro h
    rcases List.mem_map.mp h with ⟨t, htf, hid⟩
    rcases List.mem_filter.mp htf with ⟨htm, hp⟩
    simp only [Bool.and_eq_true, decide_eq_true_eq] at hp
    refine ⟨t, ?_, hp.1, hp.2⟩
    rw [← hid]
    exact findTask_eq_of_mem st.tasks hnd t htm
  · rintro ⟨t, hft, hst, hdep⟩
    obtain ⟨htm, hid⟩ := findTask_mem_and_id st.tasks x t hft
    refine List.mem_map.mpr ⟨t, ?_, hid⟩
    refine List.mem_filter.mpr ⟨htm, ?_⟩
    simp only [Bool.and_eq_true, decide_eq_true_eq]
    exact ⟨hst, hdep⟩

theorem getBlockedTasks_status (st : TaskMeshState) (x : String)
    (h : x ∈ getBlockedTasks st) :
    ∃ t ∈ st.tasks, t.id = x ∧ t.status = TaskStatus.pending := by
  unfold getBlockedTasks at h
  rcases List.mem_map.mp h with ⟨t, htf, hid⟩
  rcases List.mem_filter.mp htf with ⟨htm, hp⟩
  simp only [Bool.and_eq_true, decide_eq_true_eq] at hp
  exact ⟨t, htm, hid, hp.1⟩

theorem waveStep_eq_blockFold (st : TaskMeshState) (W : List String) :
    waveStep st W = (getBlockedTasks (executeParallelGroup st W)).foldl
      (fun s tid => s.modifyTask tid blockTask) (executeParallelGroup st W) := by
  unfold waveStep
  by_cases h : (executeParallelGroup st W).failedTasks.isEmpty
  · rw [if_pos h]
    have hfe := List.isEmpty_iff.mp h
    have hB : getBlockedTasks (executeParallelGroup st W) = [] := by
      unfold getBlockedTasks
      rw [hfe]
      have : ∀ t ∈ (executeParallelGroup st W).tasks,
          (decide (t.status = TaskStatus.pending) &&
            t.dependencies.any (fun d => decide (d ∈ ([] : List String)))) = false := by
        intro t _
        have : (t.dependencies.any (fun d => decide (d ∈ ([] : List String)))) = false := by
          simp
        rw [this]
        simp
      rw [List.filter_eq_nil_iff.mpr (fun t ht => by rw [this t ht]; simp)]
      rfl
    rw [hB]
    rfl
  · rw [if_neg h]

theorem executeParallelGroup_eq (st : TaskMeshState) (W : List String) :
    executeParallelGroup st W =
      (dispatchDecision st W).2.foldl executeTask (dispatchDecision st W).1 := rfl



/-! Run invariant of the group loop of execute. -/

theorem findTask_exists_of_mem_ids (reg : List Task) (x : String)
    (hx : x ∈ taskIds reg) : ∃ t, findTask reg x = some t := by
  obtain ⟨t, ht, hid⟩ := (mem_taskIds_iff reg x).mp hx
  unfold findTask
  have hsome : (reg.find? (fun u => decide (u.id = x))).isSome = true :=
    List.find?_isSome.mpr ⟨t, ht, by simp [hid]⟩
  cases hf : reg.find? (fun u => decide (u.id = x)) with
  | none => rw [hf] at hsome; simp at hsome
  | some u => exact ⟨u, rfl⟩

theorem blockTask_eq_self (t : Task) (h : t.status = TaskStatus.blocked) :
    blockTask t = t := by
  cases t
  simp only [blockTask]
  simp only at h
  rw [h]

theorem waveStep_master (reg0 : List Task) (hnd0 : (taskIds reg0).Nodup)
    (st : TaskMeshState) (done W : List String)
    (inv : RunInv reg0 st done)
    (hWnd : W.Nodup) (hWsub : ∀ v ∈ W, v ∈ taskIds reg0) (hWdone : ∀ v ∈ W, v ∉ done) :
    (taskIds (waveStep st W).tasks = taskIds st.tasks) ∧
    ((waveStep st W).executionOrder = st.executionOrder) ∧
    ((waveStep st W).runningTasks = []) ∧
    ((waveStep st W).completedTasks.Nodup) ∧
    ((waveStep st W).failedTasks.Nodup) ∧
    (∀ x, x ∈ (waveStep st W).completedTasks ↔ x ∈ st.completedTasks ∨
      (x ∈ W.filter (fun v => !(hasFailedDep st v)) ∧
        ∃ t, findTask st.tasks x = some t ∧ ∃ r, handlerOutcome t = Except.ok r)) ∧
    (∀ x, x ∈ (waveStep st W).failedTasks ↔ x ∈ st.failedTasks ∨
      (x ∈ W.filter (fun v => !(hasFailedDep st v)) ∧
        ∃ t, findTask st.tasks x = some t ∧ ∃ e, handlerOutcome t = Except.error e)) ∧
    ((dispatchDecision st W).2 = W.filter (fun v => !(hasFailedDep st v))) ∧
    (∀ x t, findTask st.tasks x = some t →
      (x ∈ W.filter (fun v => !(hasFailedDep st v)) ∧ t.status = TaskStatus.pending ∧
        ((∃ r c1 c2, handlerOutcome t = Except.ok r ∧
          findTask (waveStep st W).tasks x =
            some { t with status := TaskStatus.completed, startedAt := some c1,
                          result := some r, completedAt := some c2 }) ∨
         (∃ e c1 c2, handlerOutcome t = Except.error e ∧
          findTask (waveStep st W).tasks x =
            some { t with status := TaskStatus.failed, startedAt := some c1,
                          error := some e, completedAt := some c2 }))) ∨
      (x ∉ W.filter (fun v => !(hasFailedDep st v)) ∧
        findTask (waveStep st W).tasks x = some (blockTask t) ∧
        (t.status = TaskStatus.pending ∨ t.status = TaskStatus.blocked) ∧
        ∃ d ∈ t.dependencies, d ∈ (waveStep st W).failedTasks) ∨
      (x ∉ W ∧ x ∉ W.filter (fun v => !(hasFailedDep st v)) ∧
        findTask (waveStep st W).tasks x = some t)) := by
  have hndst : (taskIds st.tasks).Nodup := by rw [inv.ids_eq]; exact hnd0
  have hWfind : ∀ v ∈ W, ∃ t, findTask st.tasks v = some t := by
    intro v hv
    refine findTask_exists_of_mem_ids st.tasks v ?_
    rw [inv.ids_eq]
    exact hWsub v hv
  have hWstatus : ∀ v ∈ W, ∀ t, findTask st.tasks v = some t →
      t.status = TaskStatus.pending ∨ t.status = TaskStatus.blocked := by
    intro v hv t hft
    exact inv.rest_status v t hft (hWdone v hv)
  have hWpre : ∀ v ∈ W, ∃ t, findTask st.tasks v = some t ∧
      t.status ≠ TaskStatus.completed := by
    intro v hv
    obtain ⟨t, hft⟩ := hWfind v hv
    refine ⟨t, hft, ?_⟩
    rcases hWstatus v hv t hft with h | h <;> simp [h]
  have hdd : dispatchDecision st W = W.foldl dispatchStep (st, []) := rfl
  obtain ⟨dd1, dd2, dd3, dd4, dd5, dd6, dd6b, dd7⟩ := dispatchFold_spec W st [] hWnd hWpre
  rw [List.nil_append] at dd1
  set R := W.filter (fun v => !(hasFailedDep st v)) with hR
  have hRnd : R.Nodup := hWnd.filter _
  have hRW : ∀ x ∈ R, x ∈ W := fun x hx => (List.mem_filter.mp hx).1
  have hRnofd : ∀ x ∈ R, hasFailedDep st x = false := by
    intro x hx
    have := (List.mem_filter.mp hx).2
    simpa using this
  have hsD_eq : ∀ x, ¬(x ∈ W ∧ hasFailedDep st x = true) →
      findTask (W.foldl dispatchStep (st, [])).1.tasks x = findTask st.tasks x := by
    intro x hx
    rw [dd7 x, if_neg hx]
  have hsD_R : ∀ x ∈ R, findTask (W.foldl dispatchStep (st, [])).1.tasks x =
      findTask st.tasks x := by
    intro x hx
    refine hsD_eq x ?_
    rintro ⟨-, hfd⟩
    rw [hRnofd x hx] at hfd
    exact Bool.noConfusion hfd
  have hRfind : ∀ x ∈ R, ∃ t,
      findTask (W.foldl dispatchStep (st, [])).1.tasks x = some t := by
    intro x hx
    obtain ⟨t, hft⟩ := hWfind x (hRW x hx)
    exact ⟨t, by rw [hsD_R x hx]; exact hft⟩
  obtain ⟨ef1, ef2, ef3, ef4, ef5, ef6, ef7, ef8⟩ :=
    execFold_spec R (W.foldl dispatchStep (st, [])).1 hRnd hRfind
  have hepg : executeParallelGroup st W =
      R.foldl executeTask (W.foldl dispatchStep (st, [])).1 := by
    rw [executeParallelGroup_eq, hdd, dd1]
  set s2 := R.foldl executeTask (W.foldl dispatchStep (st, [])).1 with hs2
  obtain ⟨bf1, bf2, bf3, bf4, bf5, bf6⟩ := blockFold_spec (getBlockedTasks s2) s2
  have hws : waveStep st W =
      (getBlockedTasks s2).foldl (fun s tid => s.modifyTask tid blockTask) s2 := by
    rw [waveStep_eq_blockFold, hepg]
  set s3 := (getBlockedTasks s2).foldl (fun s tid => s.modifyTask tid blockTask) s2
    with hs3
  have hids2 : taskIds s2.tasks = taskIds st.tasks := by
    rw [hs2, taskIds_execFold, dd6b]
  have hnds2 : (taskIds s2.tasks).Nodup := by rw [hids2]; exact hndst
  have hids3 : taskIds s3.tasks = taskIds st.tasks := by rw [bf6, hids2]
  have horder : s3.executionOrder = st.executionOrder := by rw [bf5, ef8, dd6]
  have hrun : s3.runningTasks = [] := by
    rw [bf4]
    refine ef7 ?_
    rw [dd4, inv.running_nil]
  have hcompnd : s3.completedTasks.Nodup := by
    rw [bf2]
    refine ef5 ?_
    rw [dd2]
    exact inv.completed_nodup
  have hfailnd : s3.failedTasks.Nodup := by
    rw [bf3]
    refine ef6 ?_
    rw [dd3]
    exact inv.failed_nodup
  have hmemC : ∀ x, x ∈ s3.completedTasks ↔ x ∈ st.completedTasks ∨
      (x ∈ R ∧ ∃ t, findTask st.tasks x = some t ∧
        ∃ r, handlerOutcome t = Except.ok r) := by
    intro x
    rw [bf2, ef3 x, dd2]
    constructor
    · rintro (h | ⟨hxR, t, hft, hr⟩)
      · exact Or.inl h
      · exact Or.inr ⟨hxR, t, by rw [← hsD_R x hxR]; exact hft, hr⟩
    · rintro (h | ⟨hxR, t, hft, hr⟩)
      · exact Or.inl h
      · exact Or.inr ⟨hxR, t, by rw [hsD_R x hxR]; exact hft, hr⟩
  have hmemF : ∀ x, x ∈ s3.failedTasks ↔ x ∈ st.failedTasks ∨
      (x ∈ R ∧ ∃ t, findTask st.tasks x = some t ∧
        ∃ e, handlerOutcome t = Except.error e) := by
    intro x
    rw [bf3, ef4 x, dd3]
    constructor
    · rintro (h | ⟨hxR, t, hft, hr⟩)
      · exact Or.inl h
      · exact Or.inr ⟨hxR, t, by rw [← hsD_R x hxR]; exact hft, hr⟩
    · rintro (h | ⟨hxR, t, hft, hr⟩)
      · exact Or.inl h
      · exact Or.inr ⟨hxR, t, by rw [hsD_R x hxR]; exact hft, hr⟩
  have hfailmono : ∀ x, x ∈ st.failedTasks → x ∈ s3.failedTasks := by
    intro x hx
    exact (hmemF x).mpr (Or.inl hx)
  have master : ∀ x t, findTask st.tasks x = some t →
      (x ∈ R ∧ t.status = TaskStatus.pending ∧
        ((∃ r c1 c2, handlerOutcome t = Except.ok r ∧
          findTask s3.tasks x =
            some { t with status := TaskStatus.completed, startedAt := some c1,
                          result := some r, completedAt := some c2 }) ∨
         (∃ e c1 c2, handlerOutcome t = Except.error e ∧
          findTask s3.tasks x =
            some { t with status := TaskStatus.failed, startedAt := some c1,
                          error := some e, completedAt := some c2 }))) ∨
      (x ∉ R ∧ findTask s3.tasks x = some (blockTask t) ∧
        (t.status = TaskStatus.pending ∨ t.status = TaskStatus.blocked) ∧
        ∃ d ∈ t.dependencies, d ∈ s3.failedTasks) ∨
      (x ∉ W ∧ x ∉ R ∧ findTask s3.tasks x = some t) := by
    intro x t hft
    by_cases hxR : x ∈ R
    · have htp : t.status = TaskStatus.pending := by
        rcases hWstatus x (hRW x hxR) t hft with h | h
        · exact h
        · exfalso
          obtain ⟨d, hd, hdf⟩ := inv.blocked_dep x t hft h
          have hfd : hasFailedDep st x = true := by
            unfold hasFailedDep
            rw [depsOf_eq_of_findTask st.tasks x t hft]
            exact List.any_eq_true.mpr ⟨d, hd, by simpa using hdf⟩
          rw [hRnofd x hxR] at hfd
          exact Bool.noConfusion hfd
      have hfts : findTask (W.foldl dispatchStep (st, [])).1.tasks x = some t := by
        rw [hsD_R x hxR]
        exact hft
      rcases ef2 x hxR t hfts with ⟨c1, c2, r, hoc, hfin⟩ | ⟨c1, c2, e, hoc, hfin⟩
      · have hxB : x ∉ getBlockedTasks s2 := by
          intro hc
          obtain ⟨t2, hft2, hst2, -⟩ := (mem_getBlockedTasks s2 x hnds2).mp hc
          rw [hfin] at hft2
          injection hft2 with h2
          rw [← h2] at hst2
          exact absurd hst2 (by simp)
        have hfin3 : findTask s3.tasks x = findTask s2.tasks x := by
          rw [bf1 x, if_neg hxB]
        exact Or.inl ⟨hxR, htp, Or.inl ⟨r, c1, c2, hoc, by rw [hfin3]; exact hfin⟩⟩
      · have hxB : x ∉ getBlockedTasks s2 := by
          intro hc
          obtain ⟨t2, hft2, hst2, -⟩ := (mem_getBlockedTasks s2 x hnds2).mp hc
          rw [hfin] at hft2
          injection hft2 with h2
          rw [← h2] at hst2
          exact absurd hst2 (by simp)
        have hfin3 : findTask s3.tasks x = findTask s2.tasks x := by
          rw [bf1 x, if_neg hxB]
        exact Or.inl ⟨hxR, htp, Or.inr ⟨e, c1, c2, hoc, by rw [hfin3]; exact hfin⟩⟩
    · by_cases hxW : x ∈ W ∧ hasFailedDep st x = true
      · have hfsD : findTask (W.foldl dispatchStep (st, [])).1.tasks x =
            some (blockTask t) := by
          rw [dd7 x, if_pos hxW, hft]
          rfl
        have hfs2 : findTask s2.tasks x = some (blockTask t) := by
          rw [hs2, ef1 x hxR]
          exact hfsD
        have hxB : x ∉ getBlockedTasks s2 := by
          intro hc
          obtain ⟨t2, hft2, hst2, -⟩ := (mem_getBlockedTasks s2 x hnds2).mp hc
          rw [hfs2] at hft2
          injection hft2 with h2
          rw [← h2] at hst2
          exact absurd hst2 (by simp [blockTask])
        have hfs3 : findTask s3.tasks x = some (blockTask t) := by
          rw [bf1 x, if_neg hxB]
          exact hfs2
        have hdep : ∃ d ∈ t.dependencies, d ∈ s3.failedTasks := by
          have hfd := hxW.2
          unfold hasFailedDep at hfd
          rw [depsOf_eq_of_findTask st.tasks x t hft] at hfd
          obtain ⟨d, hd, hdf⟩ := List.any_eq_true.mp hfd
          exact ⟨d, hd, hfailmono d (by simpa using hdf)⟩
        exact Or.inr (Or.inl ⟨hxR, hfs3, hWstatus x hxW.1 t hft, hdep⟩)
      · have hxWnot : x ∉ W := by
          intro hc
          have hfd : hasFailedDep st x = false := by
            cases hfdc : hasFailedDep st x
            · rfl
            · exact absurd ⟨hc, hfdc⟩ hxW
          refine hxR (List.mem_filter.mpr ⟨hc, ?_⟩)
          rw [hfd]
          rfl
        have hfs2 : findTask s2.tasks x = some t := by
          rw [hs2, ef1 x hxR, hsD_eq x hxW]
          exact hft
        by_cases hxB : x ∈ getBlockedTasks s2
        · obtain ⟨t2, hft2, hst2, hdep2⟩ := (mem_getBlockedTasks s2 x hnds2).mp hxB
          rw [hfs2] at hft2
          injection hft2 with h2
          subst h2
          have hfs3 : findTask s3.tasks x = some (blockTask t) := by
            rw [bf1 x, if_pos hxB, hfs2]
            rfl
          have hdep : ∃ d ∈ t.dependencies, d ∈ s3.failedTasks := by
            obtain ⟨d, hd, hdf⟩ := List.any_eq_true.mp hdep2
            refine ⟨d, hd, ?_⟩
            rw [bf3]
            simpa using hdf
          exact Or.inr (Or.inl ⟨hxR, hfs3, Or.inl hst2, hdep⟩)
        · have hfs3 : findTask s3.tasks x = some t := by
            rw [bf1 x, if_neg hxB]
            exact hfs2
          exact Or.inr (Or.inr ⟨hxWnot, hxR, hfs3⟩)
  rw [hws]
  exact ⟨hids3, horder, hrun, hcompnd, hfailnd, hmemC, hmemF, by rw [hdd]; exact dd1,
    master⟩



theorem mem_ids_of_findTask (reg : List Task) (x : String) (t : Task)
    (h : findTask reg x = some t) : x ∈ taskIds reg := by
  obtain ⟨hm, hid⟩ := findTask_mem_and_id reg x t h
  exact (mem_taskIds_iff reg x).mpr ⟨t, hm, hid⟩

theorem waveStep_inv (reg0 : List Task) (hnd0 : (taskIds reg0).Nodup)
    (st : TaskMeshState) (done W : List String)
    (inv : RunInv reg0 st done)
    (hWnd : W.Nodup) (hWsub : ∀ v ∈ W, v ∈ taskIds reg0) (hWdone : ∀ v ∈ W, v ∉ done) :
    RunInv reg0 (waveStep st W) (done ++ W) := by
  obtain ⟨m1, m2, m3, m4, m5, m6, m7, m8, m9⟩ :=
    waveStep_master reg0 hnd0 st done W inv hWnd hWsub hWdone
  have hpre : ∀ x t3, findTask (waveStep st W).tasks x = some t3 →
      ∃ t, findTask st.tasks x = some t := by
    intro x t3 h3
    refine findTask_exists_of_mem_ids st.tasks x ?_
    rw [← m1]
    exact mem_ids_of_findTask _ x t3 h3
  refine ⟨?_, ?_, ?_, ?_, ?_, ?_, ?_, ?_, ?_, ?_, ?_, ?_⟩
  · rw [m1, inv.ids_eq]
  · intro x t3 h3
    obtain ⟨t, hft⟩ := hpre x t3 h3
    obtain ⟨t0, hft0, c1, c2, c3, c4, c5⟩ := inv.core x t hft
    rcases m9 x t hft with ⟨-, -, hcase⟩ | ⟨-, hfin, -, -⟩ | ⟨-, -, hfin⟩
    · rcases hcase with ⟨r, a1, a2, -, hfin⟩ | ⟨e, a1, a2, -, hfin⟩
      · rw [h3] at hfin
        injection hfin with ht3
        rw [ht3]
        exact ⟨t0, hft0, c1, c2, c3, c4, c5⟩
      · rw [h3] at hfin
        injection hfin with ht3
        rw [ht3]
        exact ⟨t0, hft0, c1, c2, c3, c4, c5⟩
    · rw [h3] at hfin
      injection hfin with ht3
      rw [ht3]
      exact ⟨t0, hft0, c1, c2, c3, c4, c5⟩
    · rw [h3] at hfin
      injection hfin with ht3
      rw [ht3]
      exact ⟨t0, hft0, c1, c2, c3, c4, c5⟩
  · intro x
    rw [m6 x]
    constructor
    · rintro (hx | ⟨hxR, t, hft, r, hoc⟩)
      · obtain ⟨t, hft, hst⟩ := (inv.completed_iff x).mp hx
        rcases m9 x t hft with ⟨hxR, htp, -⟩ | ⟨-, -, hstat, -⟩ | ⟨-, -, hfin⟩
        · rw [hst] at htp
          exact absurd htp (by simp)
        · rcases hstat with h | h <;> rw [hst] at h <;> exact absurd h (by simp)
        · exact ⟨t, hfin, hst⟩
      · rcases m9 x t hft with ⟨-, -, hcase⟩ | ⟨hxR2, -, -, -⟩ | ⟨-, hxR2, -⟩
        · rcases hcase with ⟨r2, a1, a2, hoc2, hfin⟩ | ⟨e2, a1, a2, hoc2, hfin⟩
          · exact ⟨_, hfin, rfl⟩
          · rw [hoc] at hoc2
            exact absurd hoc2 (by simp)
        · exact absurd hxR hxR2
        · exact absurd hxR hxR2
    · rintro ⟨t3, h3, hst3⟩
      obtain ⟨t, hft⟩ := hpre x t3 h3
      rcases m9 x t hft with ⟨hxR, htp, hcase⟩ | ⟨-, hfin, -, -⟩ | ⟨-, -, hfin⟩
      · rcases hcase with ⟨r, a1, a2, hoc, hfin⟩ | ⟨e, a1, a2, hoc, hfin⟩
        · exact Or.inr ⟨hxR, t, hft, r, hoc⟩
        · rw [h3] at hfin
          injection hfin with ht3
          rw [ht3] at hst3
          exact absurd hst3 (by simp)
      · rw [h3] at hfin
        injection hfin with ht3
        rw [ht3] at hst3
        exact absurd hst3 (by simp [blockTask])
      · rw [h3] at hfin
        injection hfin with ht3
        rw [ht3] at hst3
        exact Or.inl ((inv.completed_iff x).mpr ⟨t, hft, hst3⟩)
  · intro x
    rw [m7 x]
    constructor
    · rintro (hx | ⟨hxR, t, hft, e, hoc⟩)
      · obtain ⟨t, hft, hst⟩ := (inv.failed_iff x).mp hx
        rcases m9 x t hft with ⟨hxR, htp, -⟩ | ⟨-, -, hstat, -⟩ | ⟨-, -, hfin⟩
        · rw [hst] at htp
          exact absurd htp (by simp)
        · rcases hstat with h | h <;> rw [hst] at h <;> exact absurd h (by simp)
        · exact ⟨t, hfin, hst⟩
      · rcases m9 x t hft with ⟨-, -, hcase⟩ | ⟨hxR2, -, -, -⟩ | ⟨-, hxR2, -⟩
        · rcases hcase with ⟨r2, a1, a2, hoc2, hfin⟩ | ⟨e2, a1, a2, hoc2, hfin⟩
          · rw [hoc] at hoc2
            exact absurd hoc2 (by simp)
          · exact ⟨_, hfin, rfl⟩
        · exact absurd hxR hxR2
        · exact absurd hxR hxR2
    · rintro ⟨t3, h3, hst3⟩
      obtain ⟨t, hft⟩ := hpre x t3 h3
      rcases m9 x t hft with ⟨hxR, htp, hcase⟩ | ⟨-, hfin, -, -⟩ | ⟨-, -, hfin⟩
      · rcases hcase with ⟨r, a1, a2, hoc, hfin⟩ | ⟨e, a1, a2, hoc, hfin⟩
        · rw [h3] at hfin
          injection hfin with ht3
          rw [ht3] at hst3
          exact absurd hst3 (by simp)
        · exact Or.inr ⟨hxR, t, hft, e, hoc⟩
      · rw [h3] at hfin
        injection hfin with ht3
        rw [ht3] at hst3
        exact absurd hst3 (by simp [blockTask])
      · rw [h3] at hfin
        injection hfin with ht3
        rw [ht3] at hst3
        exact Or.inl ((inv.failed_iff x).mpr ⟨t, hft, hst3⟩)
  · exact m4
  · exact m5
  · exact m3
  · intro x hx t3 h3
    obtain ⟨t, hft⟩ := hpre x t3 h3
    rcases m9 x t hft with ⟨hxR, htp, hcase⟩ | ⟨-, hfin, -, -⟩ | ⟨hxW, -, hfin⟩
    · rcases hcase with ⟨r, a1, a2, hoc, hfin⟩ | ⟨e, a1, a2, hoc, hfin⟩
      · rw [h3] at hfin
        injection hfin with ht3
        rw [ht3]
        exact Or.inl rfl
      · rw [h3] at hfin
        injection hfin with ht3
        rw [ht3]
        exact Or.inr (Or.inl rfl)
    · rw [h3] at hfin
      injection hfin with ht3
      rw [ht3]
      exact Or.inr (Or.inr rfl)
    · rcases List.mem_append.mp hx with hxd | hxw
      · rw [h3] at hfin
        injection hfin with ht3
        rw [ht3]
        exact inv.done_status x hxd t hft
      · exact absurd hxw hxW
  · intro x t3 h3 hxnd
    obtain ⟨t, hft⟩ := hpre x t3 h3
    have hxW : x ∉ W := fun hc => hxnd (List.mem_append_right _ hc)
    have hxd : x ∉ done := fun hc => hxnd (List.mem_append_left _ hc)
    rcases m9 x t hft with ⟨hxR, -, -⟩ | ⟨-, hfin, hstat, -⟩ | ⟨-, -, hfin⟩
    · exact absurd ((List.mem_filter.mp hxR).1) hxW
    · rw [h3] at hfin
      injection hfin with ht3
      rw [ht3]
      exact Or.inr rfl
    · rw [h3] at hfin
      injection hfin with ht3
      rw [ht3]
      exact inv.rest_status x t hft hxd
  · intro x t3 h3 hst3
    obtain ⟨t, hft⟩ := hpre x t3 h3
    rcases m9 x t hft with ⟨hxR, htp, hcase⟩ | ⟨-, hfin, -, hdep⟩ | ⟨-, -, hfin⟩
    · rcases hcase with ⟨r, a1, a2, hoc, hfin⟩ | ⟨e, a1, a2, hoc, hfin⟩
      · rw [h3] at hfin
        injection hfin with ht3
        rw [ht3] at hst3
        exact absurd hst3 (by simp)
      · rw [h3] at hfin
        injection hfin with ht3
        rw [ht3] at hst3
        exact absurd hst3 (by simp)
    · rw [h3] at hfin
      injection hfin with ht3
      rw [ht3]
      exact hdep
    · rw [h3] at hfin
      injection hfin with ht3
      obtain ⟨d, hd, hdf⟩ := inv.blocked_dep x t hft (ht3 ▸ hst3)
      refine ⟨d, by rw [ht3]; exact hd, ?_⟩
      exact (m7 d).mpr (Or.inl hdf)
  · intro x t3 h3 hst3
    obtain ⟨t, hft⟩ := hpre x t3 h3
    rcases m9 x t hft with ⟨hxR, htp, hcase⟩ | ⟨-, hfin, -, -⟩ | ⟨-, -, hfin⟩
    · rcases hcase with ⟨r, a1, a2, hoc, hfin⟩ | ⟨e, a1, a2, hoc, hfin⟩
      · rw [h3] at hfin
        injection hfin with ht3
        rw [ht3]
        refine ⟨by simp, r, ?_, by simp⟩
        have houtr : handlerOutcome { t with status := TaskStatus.completed, startedAt := some a1, result := some r, completedAt := some a2 } = handlerOutcome t := rfl
        rw [houtr]
        exact hoc
      · rw [h3] at hfin
        injection hfin with ht3
        rw [ht3] at hst3
        exact absurd hst3 (by simp)
    · rw [h3] at hfin
      injection hfin with ht3
      rw [ht3] at hst3
      exact absurd hst3 (by simp [blockTask])
    · rw [h3] at hfin
      injection hfin with ht3
      rw [ht3]
      exact inv.completed_flags x t hft (ht3 ▸ hst3)
  · intro x t3 h3 hst3
    obtain ⟨t, hft⟩ := hpre x t3 h3
    rcases m9 x t hft with ⟨hxR, htp, hcase⟩ | ⟨-, hfin, -, -⟩ | ⟨-, -, hfin⟩
    · rcases hcase with ⟨r, a1, a2, hoc, hfin⟩ | ⟨e, a1, a2, hoc, hfin⟩
      · rw [h3] at hfin
        injection hfin with ht3
        rw [ht3] at hst3
        exact absurd hst3 (by simp)
      · rw [h3] at hfin
        injection hfin with ht3
        rw [ht3]
        refine ⟨by simp, e, ?_, by simp⟩
        have houte : handlerOutcome { t with status := TaskStatus.failed, startedAt := some a1, error := some e, completedAt := some a2 } = handlerOutcome t := rfl
        rw [houte]
        exact hoc
    · rw [h3] at hfin
      injection hfin with ht3
      rw [ht3] at hst3
      exact absurd hst3 (by simp [blockTask])
    · rw [h3] at hfin
      injection hfin with ht3
      rw [ht3]
      exact inv.failed_flags x t hft (ht3 ▸ hst3)



theorem initState_runInv (reg : List Task)
    (hpend : ∀ t ∈ reg, t.status = TaskStatus.pending) :
    RunInv reg (initState reg) [] := by
  refine ⟨rfl, ?_, ?_, ?_, List.nodup_nil, List.nodup_nil, rfl, ?_, ?_, ?_, ?_, ?_⟩
  · intro x t hft
    exact ⟨t, hft, rfl, rfl, rfl, rfl, rfl⟩
  · intro x
    constructor
    · intro h
      simp [initState] at h
    · rintro ⟨t, hft, hst⟩
      have hp := hpend t (findTask_mem_and_id reg x t hft).1
      rw [hp] at hst
      exact absurd hst (by simp)
  · intro x
    constructor
    · intro h
      simp [initState] at h
    · rintro ⟨t, hft, hst⟩
      have hp := hpend t (findTask_mem_and_id reg x t hft).1
      rw [hp] at hst
      exact absurd hst (by simp)
  · intro x hx
    simp at hx
  · intro x t hft _
    exact Or.inl (hpend t (findTask_mem_and_id reg x t hft).1)
  · intro x t hft hst
    have hp := hpend t (findTask_mem_and_id reg x t hft).1
    rw [hp] at hst
    exact absurd hst (by simp)
  · intro x t hft hst
    have hp := hpend t (findTask_mem_and_id reg x t hft).1
    rw [hp] at hst
    exact absurd hst (by simp)
  · intro x t hft hst
    have hp := hpend t (findTask_mem_and_id reg x t hft).1
    rw [hp] at hst
    exact absurd hst (by simp)

theorem waveStep_frame_done (reg0 : List Task) (hnd0 : (taskIds reg0).Nodup)
    (st : TaskMeshState) (done W : List String) (inv : RunInv reg0 st done)
    (hWnd : W.Nodup) (hWsub : ∀ v ∈ W, v ∈ taskIds reg0) (hWdone : ∀ v ∈ W, v ∉ done)
    (x : String) (hx : x ∈ done) :
    findTask (waveStep st W).tasks x = findTask st.tasks x := by
  obtain ⟨m1, m2, m3, m4, m5, m6, m7, m8, m9⟩ :=
    waveStep_master reg0 hnd0 st done W inv hWnd hWsub hWdone
  cases hft : findTask st.tasks x with
  | none =>
    cases h3 : findTask (waveStep st W).tasks x with
    | none => rfl
    | some t3 =>
      obtain ⟨t, ht⟩ := findTask_exists_of_mem_ids st.tasks x
        (by rw [← m1]; exact mem_ids_of_findTask _ x t3 h3)
      rw [hft] at ht
      exact Option.noConfusion ht
  | some t =>
    rcases m9 x t hft with ⟨hxR, -, -⟩ | ⟨-, hfin, hstat, -⟩ | ⟨-, -, hfin⟩
    · exact absurd hx (hWdone x ((List.mem_filter.mp hxR).1))
    · rcases hstat with hp | hb
      · rcases inv.done_status x hx t hft with h | h | h <;> rw [hp] at h <;>
          exact absurd h (by simp)
      · rw [hfin, blockTask_eq_self t hb]
    · exact hfin

theorem waveStep_failed_mono (reg0 : List Task) (hnd0 : (taskIds reg0).Nodup)
    (st : TaskMeshState) (done W : List String) (inv : RunInv reg0 st done)
    (hWnd : W.Nodup) (hWsub : ∀ v ∈ W, v ∈ taskIds reg0) (hWdone : ∀ v ∈ W, v ∉ done)
    (x : String) (hx : x ∈ st.failedTasks) : x ∈ (waveStep st W).failedTasks := by
  obtain ⟨m1, m2, m3, m4, m5, m6, m7, m8, m9⟩ :=
    waveStep_master reg0 hnd0 st done W inv hWnd hWsub hWdone
  exact (m7 x).mpr (Or.inl hx)

theorem runFold_inv (reg0 : List Task) (hnd0 : (taskIds reg0).Nodup)
    (waves : List (List String)) :
    ∀ (st : TaskMeshState) (done : List String),
    RunInv reg0 st done →
    (done ++ waves.flatten).Nodup →
    (∀ w ∈ waves, ∀ v ∈ w, v ∈ taskIds reg0) →
    RunInv reg0 (waves.foldl waveStep st) (done ++ waves.flatten) := by
  induction waves with
  | nil =>
    intro st done inv hnd hsub
    simpa using inv
  | cons W waves ih =>
    intro st done inv hnd hsub
    rw [List.flatten_cons, ← List.append_assoc] at hnd ⊢
    have hdW : (done ++ W).Nodup := by
      rw [List.nodup_append] at hnd
      exact hnd.1
    have hndW : W.Nodup := (List.nodup_append.mp hdW).2.1
    have hWdone : ∀ v ∈ W, v ∉ done := by
      intro v hv hc
      exact (List.nodup_append.mp hdW).2.2 hc hv
    have inv2 := waveStep_inv reg0 hnd0 st done W inv hndW
      (hsub W (List.mem_cons_self W waves)) hWdone
    have hfold : (W :: waves).foldl waveStep st = waves.foldl waveStep (waveStep st W) :=
      rfl
    rw [hfold]
    exact ih (waveStep st W) (done ++ W) inv2 hnd
      (fun w hw => hsub w (List.mem_cons_of_mem W hw))

theorem runFold_frame (reg0 : List Task) (hnd0 : (taskIds reg0).Nodup)
    (waves : List (List String)) :
    ∀ (st : TaskMeshState) (done : List String),
    RunInv reg0 st done →
    (done ++ waves.flatten).Nodup →
    (∀ w ∈ waves, ∀ v ∈ w, v ∈ taskIds reg0) →
    ∀ x ∈ done, findTask (waves.foldl waveStep st).tasks x = findTask st.tasks x := by
  induction waves with
  | nil =>
    intro st done _ _ _ x _
    rfl
  | cons W waves ih =>
    intro st done inv hnd hsub x hx
    rw [List.flatten_cons, ← List.append_assoc] at hnd
    have hdW : (done ++ W).Nodup := by
      rw [List.nodup_append] at hnd
      exact hnd.1
    have hndW : W.Nodup := (List.nodup_append.mp hdW).2.1
    have hWdone : ∀ v ∈ W, v ∉ done := by
      intro v hv hc
      exact (List.nodup_append.mp hdW).2.2 hc hv
    have inv2 := waveStep_inv reg0 hnd0 st done W inv hndW
      (hsub W (List.mem_cons_self W waves)) hWdone
    have hfold : (W :: waves).foldl waveStep st = waves.foldl waveStep (waveStep st W) :=
      rfl
    rw [hfold]
    have h1 := ih (waveStep st W) (done ++ W) inv2 hnd
      (fun w hw => hsub w (List.mem_cons_of_mem W hw)) x (List.mem_append_left _ hx)
    rw [h1]
    exact waveStep_frame_done reg0 hnd0 st done W inv hndW
      (hsub W (List.mem_cons_self W waves)) hWdone x hx

theorem runFold_failed_mono (reg0 : List Task) (hnd0 : (taskIds reg0).Nodup)
    (waves : List (List String)) :
    ∀ (st : TaskMeshState) (done : List String),
    RunInv reg0 st done →
    (done ++ waves.flatten).Nodup →
    (∀ w ∈ waves, ∀ v ∈ w, v ∈ taskIds reg0) →
    ∀ x ∈ st.failedTasks, x ∈ (waves.foldl waveStep st).failedTasks := by
  induction waves with
  | nil =>
    intro st done _ _ _ x hx
    exact hx
  | cons W waves ih =>
    intro st done inv hnd hsub x hx
    rw [List.flatten_cons, ← List.append_assoc] at hnd
    have hdW : (done ++ W).Nodup := by
      rw [List.nodup_append] at hnd
      exact hnd.1
    have hndW : W.Nodup := (List.nodup_append.mp hdW).2.1
    have hWdone : ∀ v ∈ W, v ∉ done := by
      intro v hv hc
      exact (List.nodup_append.mp hdW).2.2 hc hv
    have inv2 := waveStep_inv reg0 hnd0 st done W inv hndW
      (hsub W (List.mem_cons_self W waves)) hWdone
    have hfold : (W :: waves).foldl waveStep st = waves.foldl waveStep (waveStep st W) :=
      rfl
    rw [hfold]
    exact ih (waveStep st W) (done ++ W) inv2 hnd
      (fun w hw => hsub w (List.mem_cons_of_mem W hw)) x
      (waveStep_failed_mono reg0 hnd0 st done W inv hndW
        (hsub W (List.mem_cons_self W waves)) hWdone x hx)

theorem statusStep_no_pending (a b : TaskStatus) (h : StatusStep a b) :
    b ≠ TaskStatus.pending := by
  cases h <;> simp

theorem waveStep_statusStep (reg0 : List Task) (hnd0 : (taskIds reg0).Nodup)
    (st : TaskMeshState) (done W : List String) (inv : RunInv reg0 st done)
    (hWnd : W.Nodup) (hWsub : ∀ v ∈ W, v ∈ taskIds reg0) (hWdone : ∀ v ∈ W, v ∉ done)
    (x : String) (t t3 : Task) (hft : findTask st.tasks x = some t)
    (h3 : findTask (waveStep st W).tasks x = some t3) :
    Relation.ReflTransGen StatusStep t.status t3.status := by
  obtain ⟨m1, m2, m3, m4, m5, m6, m7, m8, m9⟩ :=
    waveStep_master reg0 hnd0 st done W inv hWnd hWsub hWdone
  rcases m9 x t hft with ⟨hxR, htp, hcase⟩ | ⟨-, hfin, hstat, -⟩ | ⟨-, -, hfin⟩
  · rcases hcase with ⟨r, a1, a2, hoc, hfin⟩ | ⟨e, a1, a2, hoc, hfin⟩
    · rw [h3] at hfin
      injection hfin with ht3
      rw [htp, ht3]
      exact Relation.ReflTransGen.head StatusStep.dispatch
        (Relation.ReflTransGen.head StatusStep.complete Relation.ReflTransGen.refl)
    · rw [h3] at hfin
      injection hfin with ht3
      rw [htp, ht3]
      exact Relation.ReflTransGen.head StatusStep.dispatch
        (Relation.ReflTransGen.head StatusStep.fail Relation.ReflTransGen.refl)
  · rw [h3] at hfin
    injection hfin with ht3
    rw [ht3]
    rcases hstat with hp | hb
    · rw [hp]
      exact Relation.ReflTransGen.head StatusStep.block Relation.ReflTransGen.refl
    · rw [blockTask_eq_self t hb]
  · rw [h3] at hfin
    injection hfin with ht3
    rw [ht3]



/-! Facts about the full run of execute. -/

theorem calcOrder_mem_ids (reg : List Task) (hnd : (taskIds reg).Nodup) :
    ∀ w ∈ calculateExecutionOrder reg, ∀ v ∈ w, v ∈ taskIds reg := by
  intro w hw v hv
  unfold calculateExecutionOrder at hw
  rcases List.mem_flatMap.mp hw with ⟨p, -, hwp⟩
  exact phaseIds_sub_taskIds reg p v
    (topologicalSort_mem_ids reg (phaseIds reg p) (phaseIds_nodup reg hnd p) w hwp v hv)

theorem execute_fst (st : TaskMeshState) :
    (execute st).1 = st.executionOrder.foldl waveStep st := rfl

theorem initState_order (reg : List Task) :
    (initState reg).executionOrder = calculateExecutionOrder reg := rfl

theorem execute_final_inv (reg : List Task) (hnd : (taskIds reg).Nodup)
    (hpend : ∀ t ∈ reg, t.status = TaskStatus.pending) :
    RunInv reg (execute (initState reg)).1 (calculateExecutionOrder reg).flatten := by
  rw [execute_fst, initState_order]
  have h := runFold_inv reg hnd (calculateExecutionOrder reg) (initState reg) []
    (initState_runInv reg hpend) (by simpa using calcOrder_flatten_nodup reg hnd)
    (calcOrder_mem_ids reg hnd)
  simpa using h

theorem runUpTo_inv (reg : List Task) (hnd : (taskIds reg).Nodup)
    (hpend : ∀ t ∈ reg, t.status = TaskStatus.pending) (k : Nat) :
    RunInv reg (runUpTo (initState reg) k)
      (((calculateExecutionOrder reg).take k).flatten) := by
  unfold runUpTo
  rw [initState_order]
  have hpref : (((calculateExecutionOrder reg).take k).flatten ++
      ((calculateExecutionOrder reg).drop k).flatten).Nodup := by
    rw [← List.flatten_append, List.take_append_drop]
    exact calcOrder_flatten_nodup reg hnd
  have h := runFold_inv reg hnd ((calculateExecutionOrder reg).take k) (initState reg) []
    (initState_runInv reg hpend)
    (by
      simp only [List.nil_append]
      exact (List.nodup_append.mp hpref).1)
    (fun w hw => calcOrder_mem_ids reg hnd w ((List.take_sublist k _).subset hw))
  simpa using h

theorem execute_eq_runUpTo (reg : List Task) :
    (execute (initState reg)).1 =
      runUpTo (initState reg) (calculateExecutionOrder reg).length := by
  rw [execute_fst, initState_order]
  unfold runUpTo
  rw [initState_order, List.take_length]



theorem getD_eq_getElem_of_lt {α : Type _} (l : List (List α)) (j : Nat)
    (h : j < l.length) : l.getD j [] = l[j] := by
  rw [List.getD_eq_getElem?_getD, List.getElem?_eq_getElem h]
  rfl

theorem mem_getD_lt_length {α : Type _} (l : List (List α)) (j : Nat) (x : α)
    (h : x ∈ l.getD j []) : j < l.length := by
  by_contra hc
  push_neg at hc
  rw [List.getD_eq_getElem?_getD, List.getElem?_eq_none hc] at h
  simp at h

theorem countP_mem_waves {α : Type _} [DecidableEq α] (ws : List (List α))
    (hnd : ws.flatten.Nodup) (v : α) (hv : v ∈ ws.flatten) :
    ws.countP (fun w => decide (v ∈ w)) = 1 := by
  induction ws with
  | nil => simp at hv
  | cons w ws ih =>
    rw [List.flatten_cons, List.nodup_append] at hnd
    rw [List.flatten_cons, List.mem_append] at hv
    rw [List.countP_cons]
    by_cases hw : v ∈ w
    · have hz : ws.countP (fun w2 => decide (v ∈ w2)) = 0 := by
        apply List.countP_eq_zero.mpr
        intro w2 hw2
        simp only [decide_eq_true_eq]
        intro hvw2
        exact hnd.2.2 hw (List.mem_flatten.mpr ⟨w2, hw2, hvw2⟩)
      simp [hw, hz]
    · have hvrest : v ∈ ws.flatten := hv.resolve_left hw
      simp [hw, ih hnd.2.1 hvrest]

theorem status_cases_length (l : List Task)
    (h : ∀ t ∈ l, t.status = TaskStatus.completed ∨ t.status = TaskStatus.failed ∨
      t.status = TaskStatus.blocked) :
    l.length =
      l.countP (fun t => decide (t.status = TaskStatus.completed)) +
      l.countP (fun t => decide (t.status = TaskStatus.failed)) +
      l.countP (fun t => decide (t.status = TaskStatus.blocked)) := by
  induction l with
  | nil => rfl
  | cons t ts ih =>
    have ht := h t (List.mem_cons_self t ts)
    have ih2 := ih (fun u hu => h u (List.mem_cons_of_mem t hu))
    rcases ht with h1 | h1 | h1 <;>
      simp [List.countP_cons, h1, ih2] <;> omega

theorem completedTasks_length_eq (reg : List Task) (hnd : (taskIds reg).Nodup)
    (st : TaskMeshState) (done : List String) (inv : RunInv reg st done) :
    st.completedTasks.length =
      st.tasks.countP (fun t => decide (t.status = TaskStatus.completed)) := by
  have hndst : (taskIds st.tasks).Nodup := by rw [inv.ids_eq]; exact hnd
  have hperm : st.completedTasks.Perm
      ((st.tasks.filter (fun t => decide (t.status = TaskStatus.completed))).map Task.id) := by
    refine (List.perm_ext_iff_of_nodup inv.completed_nodup ?_).mpr ?_
    · exact List.Nodup.sublist (List.Sublist.map Task.id (List.filter_sublist st.tasks)) hndst
    · intro x
      rw [inv.completed_iff x]
      constructor
      · rintro ⟨t, hft, hst⟩
        obtain ⟨hmem, hid⟩ := findTask_mem_and_id st.tasks x t hft
        exact List.mem_map.mpr ⟨t, List.mem_filter.mpr ⟨hmem, by simp [hst]⟩, hid⟩
      · intro hx
        obtain ⟨t, htf, hid⟩ := List.mem_map.mp hx
        obtain ⟨hmem, hst⟩ := List.mem_filter.mp htf
        refine ⟨t, ?_, by simpa using hst⟩
        rw [← hid]
        exact findTask_eq_of_mem st.tasks hndst t hmem
  rw [hperm.length_eq, List.length_map, List.countP_eq_length_filter]

theorem failedTasks_length_eq (reg : List Task) (hnd : (taskIds reg).Nodup)
    (st : TaskMeshState) (done : List String) (inv : RunInv reg st done) :
    st.failedTasks.length =
      st.tasks.countP (fun t => decide (t.status = TaskStatus.failed)) := by
  have hndst : (taskIds st.tasks).Nodup := by rw [inv.ids_eq]; exact hnd
  have hperm : st.failedTasks.Perm
      ((st.tasks.filter (fun t => decide (t.status = TaskStatus.failed))).map Task.id) := by
    refine (List.perm_ext_iff_of_nodup inv.failed_nodup ?_).mpr ?_
    · exact List.Nodup.sublist (List.Sublist.map Task.id (List.filter_sublist st.tasks)) hndst
    · intro x
      rw [inv.failed_iff x]
      constructor
      · rintro ⟨t, hft, hst⟩
        obtain ⟨hmem, hid⟩ := findTask_mem_and_id st.tasks x t hft
        exact List.mem_map.mpr ⟨t, List.mem_filter.mpr ⟨hmem, by simp [hst]⟩, hid⟩
      · intro hx
        obtain ⟨t, htf, hid⟩ := List.mem_map.mp hx
        obtain ⟨hmem, hst⟩ := List.mem_filter.mp htf
        refine ⟨t, ?_, by simpa using hst⟩
        rw [← hid]
        exact findTask_eq_of_mem st.tasks hndst t hmem
  rw [hperm.length_eq, List.length_map, List.countP_eq_length_filter]

theorem tasks_length_of_inv (reg : List Task) (st : TaskMeshState) (done : List String)
    (inv : RunInv reg st done) : st.tasks.length = reg.length := by
  have h := congrArg List.length inv.ids_eq
  simpa [taskIds] using h

theorem execute_final_all_done (reg : List Task) (hnd : (taskIds reg).Nodup)
    (r : String → Nat) (hr : RankedAcyclic reg r) :
    ∀ v ∈ taskIds reg, v ∈ (calculateExecutionOrder reg).flatten := by
  intro v hv
  exact (calcOrder_flatten_perm reg hnd r hr).mem_iff.mpr hv

theorem final_all_terminal (reg : List Task) (hnd : (taskIds reg).Nodup)
    (hpend : ∀ t ∈ reg, t.status = TaskStatus.pending)
    (r : String → Nat) (hr : RankedAcyclic reg r) :
    ∀ t ∈ (execute (initState reg)).1.tasks,
      t.status = TaskStatus.completed ∨ t.status = TaskStatus.failed ∨
        t.status = TaskStatus.blocked := by
  intro t ht
  have inv := execute_final_inv reg hnd hpend
  have hndst : (taskIds (execute (initState reg)).1.tasks).Nodup := by
    rw [inv.ids_eq]; exact hnd
  have hid : t.id ∈ taskIds (execute (initState reg)).1.tasks :=
    (mem_taskIds_iff _ t.id).mpr ⟨t, ht, rfl⟩
  rw [inv.ids_eq] at hid
  have hdone : t.id ∈ (calculateExecutionOrder reg).flatten :=
    execute_final_all_done reg hnd r hr t.id hid
  have hft : findTask (execute (initState reg)).1.tasks t.id = some t :=
    findTask_eq_of_mem _ hndst t ht
  exact inv.done_status t.id hdone t hft

theorem gather_running_le (maxParallel n : Nat) (s : GatherState)
    (h : Relation.ReflTransGen GatherStep (initGather maxParallel n) s) :
    s.semAvailable + s.runningCount = maxParallel := by
  induction h with
  | refl => simp [initGather]
  | tail hsteps hstep ih =>
    cases hstep with
    | acquire hs hw => dsimp only; omega
    | release hr => dsimp only; omega



/-! Wave-indexed views of the run. -/

theorem runUpTo_zero (reg : List Task) : runUpTo (initState reg) 0 = initState reg := rfl

theorem runUpTo_succ (reg : List Task) (k : Nat)
    (hk : k < (calculateExecutionOrder reg).length) :
    runUpTo (initState reg) (k + 1) =
      waveStep (runUpTo (initState reg) k)
        ((calculateExecutionOrder reg).getD k []) := by
  unfold runUpTo
  rw [initState_order, List.take_succ, List.getElem?_eq_getElem hk,
    getD_eq_getElem_of_lt _ k hk]
  rw [List.foldl_append]
  rfl

theorem runUpTo_stable (reg : List Task) (k : Nat)
    (hk : (calculateExecutionOrder reg).length ≤ k) :
    runUpTo (initState reg) k =
      runUpTo (initState reg) (calculateExecutionOrder reg).length := by
  unfold runUpTo
  rw [initState_order, List.take_length, List.take_of_length_le hk]

theorem execute_foldl_split (reg : List Task) (j : Nat) :
    (execute (initState reg)).1 =
      ((calculateExecutionOrder reg).drop j).foldl waveStep
        (runUpTo (initState reg) j) := by
  rw [execute_fst, initState_order]
  unfold runUpTo
  rw [initState_order, ← List.foldl_append, List.take_append_drop]

theorem calcOrder_take_flatten_nodup (reg : List Task) (hnd : (taskIds reg).Nodup)
    (k : Nat) :
    (((calculateExecutionOrder reg).take k).flatten ++
      ((calculateExecutionOrder reg).drop k).flatten).Nodup := by
  rw [← List.flatten_append, List.take_append_drop]
  exact calcOrder_flatten_nodup reg hnd

theorem calcOrder_wave_facts (reg : List Task) (hnd : (taskIds reg).Nodup)
    (j : Nat) (hj : j < (calculateExecutionOrder reg).length) :
    ((calculateExecutionOrder reg).getD j []).Nodup ∧
    (∀ v ∈ (calculateExecutionOrder reg).getD j [], v ∈ taskIds reg) ∧
    (∀ v ∈ (calculateExecutionOrder reg).getD j [],
      v ∉ ((calculateExecutionOrder reg).take j).flatten) := by
  set l := calculateExecutionOrder reg with hl
  have hflat : (l.take (j + 1)).flatten = (l.take j).flatten ++ l.getD j [] := by
    rw [List.take_succ, List.getElem?_eq_getElem hj, getD_eq_getElem_of_lt l j hj]
    rw [List.flatten_append]
    simp
  have hpre : ((l.take (j + 1)).flatten).Nodup :=
    (List.nodup_append.mp (calcOrder_take_flatten_nodup reg hnd (j + 1))).1
  rw [hflat, List.nodup_append] at hpre
  refine ⟨hpre.2.1, ?_, ?_⟩
  · intro v hv
    have hw : l.getD j [] ∈ l := by
      rw [getD_eq_getElem_of_lt l j hj]
      exact List.getElem_mem hj
    exact calcOrder_mem_ids reg hnd _ hw v hv
  · intro v hv hc
    exact hpre.2.2 hc hv

theorem runUpTo_statusStep (reg : List Task) (hnd : (taskIds reg).Nodup)
    (hpend : ∀ t ∈ reg, t.status = TaskStatus.pending)
    (k : Nat) (x : String) (t t2 : Task)
    (h1 : findTask (runUpTo (initState reg) k).tasks x = some t)
    (h2 : findTask (runUpTo (initState reg) (k + 1)).tasks x = some t2) :
    Relation.ReflTransGen StatusStep t.status t2.status := by
  by_cases hk : k < (calculateExecutionOrder reg).length
  · obtain ⟨hWnd, hWsub, hWnew⟩ := calcOrder_wave_facts reg hnd k hk
    rw [runUpTo_succ reg k hk] at h2
    exact waveStep_statusStep reg hnd (runUpTo (initState reg) k)
      (((calculateExecutionOrder reg).take k).flatten)
      ((calculateExecutionOrder reg).getD k [])
      (runUpTo_inv reg hnd hpend k) hWnd hWsub hWnew x t t2 h1 h2
  · push_neg at hk
    rw [runUpTo_stable reg k hk] at h1
    rw [runUpTo_stable reg (k + 1) (Nat.le_succ_of_le hk)] at h2
    rw [h1] at h2
    injection h2 with h3
    rw [h3]

theorem runUpTo_reach_pending (reg : List Task) (hnd : (taskIds reg).Nodup)
    (hpend : ∀ t ∈ reg, t.status = TaskStatus.pending) :
    ∀ (k : Nat) (x : String) (t : Task),
      findTask (runUpTo (initState reg) k).tasks x = some t →
      Relation.ReflTransGen StatusStep TaskStatus.pending t.status := by
  intro k
  induction k with
  | zero =>
    intro x t h
    rw [runUpTo_zero] at h
    obtain ⟨hmem, -⟩ := findTask_mem_and_id reg x t h
    rw [hpend t hmem]
  | succ k ih =>
    intro x t h2
    have hx : x ∈ taskIds reg := by
      have h := mem_ids_of_findTask _ x t h2
      rw [(runUpTo_inv reg hnd hpend (k + 1)).ids_eq] at h
      exact h
    obtain ⟨t1, h1⟩ := findTask_exists_of_mem_ids (runUpTo (initState reg) k).tasks x
      (by rw [(runUpTo_inv reg hnd hpend k).ids_eq]; exact hx)
    exact (ih x t1 h1).trans (runUpTo_statusStep reg hnd hpend k x t1 t h1 h2)

theorem reflTransGen_statusStep_no_pending (a b : TaskStatus)
    (h : Relation.ReflTransGen StatusStep a b) (ha : a ≠ TaskStatus.pending) :
    b ≠ TaskStatus.pending := by
  induction h with
  | refl => exact ha
  | tail hsteps hstep ih => exact statusStep_no_pending _ _ hstep



/-! The claims. -/

/-- C4: an error raised by a task handler is caught at the per-task
boundary: the task ends failed with the error message recorded and
completed_at set, the records of all other tasks are untouched by the
invocation, and for a well-formed acyclic registry the run still
terminates with a summary counting every registered task and leaving no
task pending, however many tasks fail. -/
theorem C4_handler_error_contained (reg : List Task)
    (hnd : (taskIds reg).Nodup)
    (hpend : ∀ t ∈ reg, t.status = TaskStatus.pending)
    (r : String → Nat) (hr : RankedAcyclic reg r)
    (st : TaskMeshState) (tid : String) (t : Task) (e : String)
    (hft : findTask st.tasks tid = some t)
    (he : t.handler = some (Except.error e)) :
    statusOf (executeTask st tid) tid = some TaskStatus.failed ∧
    (∃ t2, findTask (executeTask st tid).tasks tid = some t2 ∧
      t2.error = some e ∧ t2.completedAt = some (st.clock + 1)) ∧
    (executeTask st tid).failedTasks = addId st.failedTasks tid ∧
    (∀ x, x ≠ tid → findTask (executeTask st tid).tasks x = findTask st.tasks x) ∧
    (execute (initState reg)).2.totalTasks = reg.length ∧
    pendingCount (execute (initState reg)).1 = 0 := by
  have h := executeTask_found st tid t hft
  have hoc : handlerOutcome t = Except.error e := by
    rw [handlerOutcome, he]
  obtain ⟨hne, hord, hrun, hclk, hm⟩ := h
  rw [hoc] at hm
  obtain ⟨hfind, hfailset, hcompset⟩ := hm
  refine ⟨?_, ⟨_, hfind, rfl, rfl⟩, hfailset, hne, ?_, ?_⟩
  · rw [statusOf, hfind]
    rfl
  · exact tasks_length_of_inv reg _ _ (execute_final_inv reg hnd hpend)
  · have hterm := final_all_terminal reg hnd hpend r hr
    rw [pendingCount, List.length_eq_zero, List.filter_eq_nil_iff]
    intro u hu
    rcases hterm u hu with h1 | h1 | h1 <;> simp [h1]

/-- Witness for C4 on the chain registry whose first task raises. -/
theorem C4_witness :
    statusOf (executeTask (initState regChain) "a") "a" = some TaskStatus.failed ∧
    (∃ t2, findTask (executeTask (initState regChain) "a").tasks "a" = some t2 ∧
      t2.error = some "boom" ∧ t2.completedAt = some ((initState regChain).clock + 1)) ∧
    (executeTask (initState regChain) "a").failedTasks =
      addId (initState regChain).failedTasks "a" ∧
    (∀ x, x ≠ "a" →
      findTask (executeTask (initState regChain) "a").tasks x =
        findTask (initState regChain).tasks x) ∧
    (execute (initState regChain)).2.totalTasks = regChain.length ∧
    pendingCount (execute (initState regChain)).1 = 0 :=
  C4_handler_error_contained regChain (by decide) (by decide)
    (fun v => if v = "a" then 0 else if v = "b" then 1 else 2)
    (by unfold RankedAcyclic; decide)
    (initState regChain) "a"
    { id := "a", name := "A", phase := TaskPhase.foundation,
      handler := some (Except.error "boom") }
    "boom" (by decide) rfl

/-- C5: conservation at run end for a well-formed acyclic registry: no
task is left pending, the summary counts satisfy completed + failed +
blocked + pending = total, and every registered task ends completed,
failed or blocked. -/
theorem C5_conservation (reg : List Task)
    (hnd : (taskIds reg).Nodup)
    (hpend : ∀ t ∈ reg, t.status = TaskStatus.pending)
    (r : String → Nat) (hr : RankedAcyclic reg r) :
    pendingCount (execute (initState reg)).1 = 0 ∧
    (execute (initState reg)).2.completed + (execute (initState reg)).2.failed +
        (execute (initState reg)).2.blocked + pendingCount (execute (initState reg)).1 =
      (execute (initState reg)).2.totalTasks ∧
    (∀ t ∈ (execute (initState reg)).1.tasks,
      t.status = TaskStatus.completed ∨ t.status = TaskStatus.failed ∨
        t.status = TaskStatus.blocked) := by
  have hterm := final_all_terminal reg hnd hpend r hr
  have invF := execute_final_inv reg hnd hpend
  have hpc : pendingCount (execute (initState reg)).1 = 0 := by
    rw [pendingCount, List.length_eq_zero, List.filter_eq_nil_iff]
    intro u hu
    rcases hterm u hu with h1 | h1 | h1 <;> simp [h1]
  refine ⟨hpc, ?_, hterm⟩
  rw [hpc, Nat.add_zero]
  have h1 : (execute (initState reg)).2.completed =
      (execute (initState reg)).1.tasks.countP
        (fun t => decide (t.status = TaskStatus.completed)) :=
    completedTasks_length_eq reg hnd _ _ invF
  have h2 : (execute (initState reg)).2.failed =
      (execute (initState reg)).1.tasks.countP
        (fun t => decide (t.status = TaskStatus.failed)) :=
    failedTasks_length_eq reg hnd _ _ invF
  have h3 : (execute (initState reg)).2.blocked =
      (execute (initState reg)).1.tasks.countP
        (fun t => decide (t.status = TaskStatus.blocked)) :=
    (List.countP_eq_length_filter _ _).symm
  rw [h1, h2, h3]
  exact (status_cases_length _ hterm).symm

/-- Witness for C5 on the chain registry: one completed, one failed, one
blocked, none pending. -/
theorem C5_witness :
    pendingCount (execute (initState regChain)).1 = 0 ∧
    (execute (initState regChain)).2.completed + (execute (initState regChain)).2.failed +
        (execute (initState regChain)).2.blocked +
        pendingCount (execute (initState regChain)).1 =
      (execute (initState regChain)).2.totalTasks ∧
    (∀ t ∈ (execute (initState regChain)).1.tasks,
      t.status = TaskStatus.completed ∨ t.status = TaskStatus.failed ∨
        t.status = TaskStatus.blocked) :=
  C5_conservation regChain (by decide) (by decide)
    (fun v => if v = "a" then 0 else if v = "b" then 1 else 2)
    (by unfold RankedAcyclic; decide)

/-- C6: registering a duplicate id raises nothing and does change the
registry: the dict assignment overwrites the stored record in place and
preserves the id list; a fresh id is appended; and a dependency id absent
from a phase scope is ignored by resolution, so a task all of whose
dependencies are out of scope sits in the first wave of its phase. -/
theorem C6_registration :
    (∀ (reg : List Task) (t : Task), t.id ∈ taskIds reg →
      addTask reg t = updateTask reg t.id (fun _ => t) ∧
      taskIds (addTask reg t) = taskIds reg) ∧
    (∀ (reg : List Task) (t : Task), t.id ∉ taskIds reg →
      addTask reg t = reg ++ [t]) ∧
    (∀ (reg : List Task) (v : String) (p : TaskPhase),
      v ∈ phaseIds reg p →
      (∀ d ∈ depsOf reg v, d ∉ phaseIds reg p) →
      v ∈ (topologicalSort reg (phaseIds reg p)).headD []) := by
  refine ⟨?_, ?_, ?_⟩
  · intro reg t h
    refine ⟨by rw [addTask, if_pos h], ?_⟩
    rw [addTask, if_pos h]
    unfold taskIds updateTask
    rw [List.map_map]
    refine List.map_congr_left ?_
    intro u _
    by_cases hu : u.id = t.id
    · simp [Function.comp, hu]
    · simp [Function.comp, hu]
  · intro reg t h
    rw [addTask, if_neg h]
  · intro reg v p hv hdeps
    rw [topologicalSort_head]
    refine List.mem_filter.mpr ⟨hv, ?_⟩
    simp only [decide_eq_true_eq]
    unfold inDegreeInit
    have hz : (depsOf reg v).countP (fun d => decide (d ∈ phaseIds reg p)) = 0 :=
      List.countP_eq_zero.mpr (fun d hd => by simp [hdeps d hd])
    rw [hz]
    rfl

/-- Counterexample for C6: a duplicate registration silently overwrites
(no error, registry changed) and a task with an unregistered dependency
is scheduled and runs to completion (no error, the mesh runs). -/
theorem C6_counterexample :
    addTask [taskA1] taskA2 = [taskA2] ∧
    addTask [taskA1] taskA2 ≠ [taskA1] ∧
    "ghost" ∉ taskIds [taskGhostDep] ∧
    "ghost" ∈ depsOf [taskGhostDep] "x" ∧
    calculateExecutionOrder [taskGhostDep] = [["x"]] ∧
    statusOf (execute (initState [taskGhostDep])).1 "x" = some TaskStatus.completed := by
  decide

/-- Witness for C6 at the duplicate pair and the ghost dependency. -/
theorem C6_witness :
    addTask [taskA1] taskA2 = updateTask [taskA1] "a" (fun _ => taskA2) ∧
    taskIds (addTask [taskA1] taskA2) = taskIds [taskA1] ∧
    "x" ∈ (topologicalSort [taskGhostDep]
      (phaseIds [taskGhostDep] TaskPhase.foundation)).headD [] := by
  refine ⟨(C6_registration.1 [taskA1] taskA2 (by decide)).1,
    (C6_registration.1 [taskA1] taskA2 (by decide)).2,
    C6_registration.2.2 [taskGhostDep] "x" TaskPhase.foundation (by decide) (by decide)⟩

/-- C7: along every interleaving of the semaphore-bounded gather of a
wave, the number of simultaneously running tasks never exceeds the
configured bound, because available permits plus running tasks is
constantly the configured maximum. -/
theorem C7_concurrency_ceiling (maxParallel n : Nat) (s : GatherState)
    (h : Relation.ReflTransGen GatherStep (initGather maxParallel n) s) :
    s.runningCount ≤ maxParallel := by
  have hk := gather_running_le maxParallel n s h
  omega

/-- Witness for C7: two of three tasks admitted under a bound of two. -/
theorem C7_witness :
    ({ semAvailable := 0, waitingCount := 1, runningCount := 2, doneCount := 0 } :
      GatherState).runningCount ≤ 2 := by
  refine C7_concurrency_ceiling 2 3 _ ?_
  have h1 : GatherStep (initGather 2 3)
      { semAvailable := 1, waitingCount := 2, runningCount := 1, doneCount := 0 } :=
    GatherStep.acquire (s := initGather 2 3) (by decide) (by decide)
  have h2 : GatherStep
      ({ semAvailable := 1, waitingCount := 2, runningCount := 1, doneCount := 0 } :
        GatherState)
      { semAvailable := 0, waitingCount := 1, runningCount := 2, doneCount := 0 } :=
    GatherStep.acquire
      (s := { semAvailable := 1, waitingCount := 2, runningCount := 1, doneCount := 0 })
      (by decide) (by decide)
  exact Relation.ReflTransGen.tail (Relation.ReflTransGen.tail Relation.ReflTransGen.refl h1) h2

/-- C8: within each phase the first wave is exactly the in-degree-zero
ids in registry insertion order, so resolution is deterministic for a
fixed registration sequence; the insertion-order guarantee for later
waves is refuted separately. -/
theorem C8_first_wave_insertion_order (reg : List Task) (p : TaskPhase) :
    (topologicalSort reg (phaseIds reg p)).headD [] =
      (phaseIds reg p).filter
        (fun v => decide (inDegreeInit reg (phaseIds reg p) v = 0)) :=
  topologicalSort_head reg (phaseIds reg p)

/-- Counterexample for C8: in the diamond registry the second wave lists
y before x although x was registered before y. -/
theorem C8_counterexample :
    (topologicalSort regDiamond (taskIds regDiamond)).getD 1 [] = ["y", "x"] ∧
    (taskIds regDiamond).filter (fun v => decide (v ∈ ["y", "x"])) = ["x", "y"] ∧
    (["y", "x"] : List String) ≠ ["x", "y"] := by
  decide

/-- Witness for C8 at the diamond registry. -/
theorem C8_witness :
    (topologicalSort regDiamond (phaseIds regDiamond TaskPhase.foundation)).headD [] =
      (phaseIds regDiamond TaskPhase.foundation).filter
        (fun v => decide (inDegreeInit regDiamond
          (phaseIds regDiamond TaskPhase.foundation) v = 0)) :=
  C8_first_wave_insertion_order regDiamond TaskPhase.foundation



/-- C10: a task without handler is dispatched normally: one invocation
marks it completed with the placeholder result string and adds it to the
completed set, and in a well-formed acyclic registry of handler-less
tasks every task ends completed with the placeholder result. -/
theorem C10_no_handler_completes (reg : List Task)
    (hnd : (taskIds reg).Nodup)
    (hpend : ∀ t ∈ reg, t.status = TaskStatus.pending)
    (hnone : ∀ t ∈ reg, t.handler = none)
    (r : String → Nat) (hr : RankedAcyclic reg r)
    (st : TaskMeshState) (tid : String) (t : Task)
    (hft : findTask st.tasks tid = some t) (hno : t.handler = none) :
    statusOf (executeTask st tid) tid = some TaskStatus.completed ∧
    (∃ t2, findTask (executeTask st tid).tasks tid = some t2 ∧
      t2.result = some ("Completed: " ++ t.name)) ∧
    (executeTask st tid).completedTasks = addId st.completedTasks tid ∧
    (∀ t0 ∈ reg, ∃ tf, findTask (execute (initState reg)).1.tasks t0.id = some tf ∧
      tf.status = TaskStatus.completed ∧
      tf.result = some ("Completed: " ++ t0.name)) := by
  have hoc : handlerOutcome t = Except.ok ("Completed: " ++ t.name) := by
    rw [handlerOutcome, hno]
  obtain ⟨hne, hord, hrun, hclk, hm⟩ := executeTask_found st tid t hft
  rw [hoc] at hm
  obtain ⟨hfind, hcompset, hfailset⟩ := hm
  refine ⟨?_, ⟨_, hfind, rfl⟩, hcompset, ?_⟩
  · rw [statusOf, hfind]
    rfl
  · intro t0 ht0
    have invF := execute_final_inv reg hnd hpend
    have hndF : (taskIds (execute (initState reg)).1.tasks).Nodup := by
      rw [invF.ids_eq]
      exact hnd
    obtain ⟨tf, hftf⟩ := findTask_exists_of_mem_ids (execute (initState reg)).1.tasks t0.id
      (by rw [invF.ids_eq]; exact (mem_taskIds_iff reg t0.id).mpr ⟨t0, ht0, rfl⟩)
    obtain ⟨tfmem, -⟩ := findTask_mem_and_id _ t0.id tf hftf
    obtain ⟨t0b, hfind0, -, hname, -, -, hhand⟩ := invF.core t0.id tf hftf
    have hfind0b : findTask reg t0.id = some t0 := findTask_eq_of_mem reg hnd t0 ht0
    rw [hfind0b] at hfind0
    injection hfind0 with h0
    rw [← h0] at hname hhand
    have hocf : handlerOutcome tf = Except.ok ("Completed: " ++ tf.name) := by
      rw [handlerOutcome, hhand, hnone t0 ht0]
    have hnofail : ∀ (d : String), d ∈ (execute (initState reg)).1.failedTasks → False := by
      intro d hd
      obtain ⟨td, hftd, hsd⟩ := (invF.failed_iff d).mp hd
      obtain ⟨-, e, hocd, -⟩ := invF.failed_flags d td hftd hsd
      obtain ⟨t0d, hfind0d, -, -, -, -, hhandd⟩ := invF.core d td hftd
      obtain ⟨h0dmem, -⟩ := findTask_mem_and_id reg d t0d hfind0d
      rw [handlerOutcome, hhandd, hnone t0d h0dmem] at hocd
      exact Except.noConfusion hocd
    rcases final_all_terminal reg hnd hpend r hr tf tfmem with hs | hs | hs
    · obtain ⟨-, res, hocr, hres⟩ := invF.completed_flags t0.id tf hftf hs
      rw [hocf] at hocr
      injection hocr with hres2
      rw [← hres2] at hres
      rw [hname] at hres
      exact ⟨tf, hftf, hs, hres⟩
    · obtain ⟨-, e, hocd, -⟩ := invF.failed_flags t0.id tf hftf hs
      rw [hocf] at hocd
      exact Except.noConfusion hocd
    · obtain ⟨d, -, hd⟩ := invF.blocked_dep t0.id tf hftf hs
      exact absurd hd (fun hc => hnofail d hc)

/-- Witness for C10 on the basic two-task registry without handlers. -/
theorem C10_witness :
    statusOf (executeTask (initState regBasic) "a") "a" = some TaskStatus.completed ∧
    (∃ t2, findTask (executeTask (initState regBasic) "a").tasks "a" = some t2 ∧
      t2.result = some ("Completed: " ++ "A")) ∧
    (executeTask (initState regBasic) "a").completedTasks =
      addId (initState regBasic).completedTasks "a" ∧
    (∀ t0 ∈ regBasic, ∃ tf,
      findTask (execute (initState regBasic)).1.tasks t0.id = some tf ∧
      tf.status = TaskStatus.completed ∧
      tf.result = some ("Completed: " ++ t0.name)) :=
  C10_no_handler_completes regBasic (by decide) (by decide) (by decide)
    (fun v => if v = "a" then 0 else 1) (by unfold RankedAcyclic; decide)
    (initState regBasic) "a"
    { id := "a", name := "A", phase := TaskPhase.foundation }
    (by decide) rfl

/-- C1: for a well-formed acyclic registry the execution order is a total
partition of the task ids — its flattening is a permutation of the ids
and every id lies in exactly one wave — and the strict edge-order
guarantee holds for every dependency edge whose source phase does not
come after its target phase; the guarantee fails for backward cross-phase
edges, refuted separately. -/
theorem C1_partition_edge_order (reg : List Task)
    (hnd : (taskIds reg).Nodup)
    (r : String → Nat) (hr : RankedAcyclic reg r) :
    (calculateExecutionOrder reg).flatten.Perm (taskIds reg) ∧
    (∀ v ∈ taskIds reg,
      (calculateExecutionOrder reg).countP (fun w => decide (v ∈ w)) = 1) ∧
    (∀ tu ∈ reg, ∀ tv ∈ reg, tu.id ∈ tv.dependencies →
      TaskPhase.idx tu.phase ≤ TaskPhase.idx tv.phase →
      ∀ i j, tu.id ∈ (calculateExecutionOrder reg).getD i [] →
        tv.id ∈ (calculateExecutionOrder reg).getD j [] → i < j) := by
  refine ⟨calcOrder_flatten_perm reg hnd r hr, ?_, ?_⟩
  · intro v hv
    exact countP_mem_waves (calculateExecutionOrder reg)
      (calcOrder_flatten_nodup reg hnd) v
      ((calcOrder_flatten_perm reg hnd r hr).mem_iff.mpr hv)
  · intro tu htu tv htv hdep hmono i j hu hv
    exact calcOrder_edge_lt reg hnd tu.id tv.id tu.phase tv.phase
      ((mem_phaseIds_iff reg tu.id tu.phase).mpr ⟨tu, htu, rfl, rfl⟩)
      ((mem_phaseIds_iff reg tv.id tv.phase).mpr ⟨tv, htv, rfl, rfl⟩)
      hmono (by rw [depsOf_eq_of_mem reg hnd tv htv]; exact hdep) i j hu hv

/-- Counterexample for C1: a backward cross-phase edge b depends on a,
with b in the earlier phase, puts the dependency a in a strictly later
wave than its dependent b, violating the claimed edge order. -/
theorem C1_counterexample :
    RankedAcyclic regCross (fun v => if v = "a" then 0 else 1) ∧
    (∃ tv ∈ regCross, tv.id = "b" ∧ "a" ∈ tv.dependencies) ∧
    calculateExecutionOrder regCross = [["b"], ["a"]] ∧
    "a" ∈ (calculateExecutionOrder regCross).getD 1 [] ∧
    "b" ∈ (calculateExecutionOrder regCross).getD 0 [] ∧
    ¬((1 : Nat) < 0) := by
  refine ⟨by unfold RankedAcyclic; decide, ?_, by decide, by decide, by decide, by decide⟩
  refine ⟨{ id := "b", name := "B", phase := TaskPhase.foundation, dependencies := ["a"] },
    by decide, by decide, by decide⟩

/-- Witness for C1 on the basic two-task registry. -/
theorem C1_witness :
    (calculateExecutionOrder regBasic).flatten.Perm (taskIds regBasic) ∧
    (∀ v ∈ taskIds regBasic,
      (calculateExecutionOrder regBasic).countP (fun w => decide (v ∈ w)) = 1) ∧
    (∀ tu ∈ regBasic, ∀ tv ∈ regBasic, tu.id ∈ tv.dependencies →
      TaskPhase.idx tu.phase ≤ TaskPhase.idx tv.phase →
      ∀ i j, tu.id ∈ (calculateExecutionOrder regBasic).getD i [] →
        tv.id ∈ (calculateExecutionOrder regBasic).getD j [] → i < j) :=
  C1_partition_edge_order regBasic (by decide)
    (fun v => if v = "a" then 0 else 1) (by unfold RankedAcyclic; decide)

/-- C3: a cycle confined to one phase is not reported: the sort silently
omits every id of a dependency-closed cyclic set from all waves, those
tasks never execute, never enter the completed or failed sets, and end
the run still pending or blocked, while the rest of the registry runs. -/
theorem C3_cycle_silently_dropped (reg : List Task)
    (hnd : (taskIds reg).Nodup)
    (hpend : ∀ t ∈ reg, t.status = TaskStatus.pending)
    (C : List String) (p : TaskPhase)
    (hCsub : ∀ v ∈ C, v ∈ phaseIds reg p)
    (hCclosed : ∀ v ∈ C, ∃ u ∈ C, u ∈ depsOf reg v) :
    ∀ v ∈ C, v ∉ (calculateExecutionOrder reg).flatten ∧
      v ∉ (execute (initState reg)).1.completedTasks ∧
      v ∉ (execute (initState reg)).1.failedTasks ∧
      (statusOf (execute (initState reg)).1 v = some TaskStatus.pending ∨
        statusOf (execute (initState reg)).1 v = some TaskStatus.blocked) := by
  intro v hv
  have hnotphase : v ∉ (topologicalSort reg (phaseIds reg p)).flatten :=
    topologicalSort_cycle_not_mem reg (phaseIds reg p)
      (phaseIds_nodup reg hnd p) C hCsub hCclosed v hv
  have hnotflat : v ∉ (calculateExecutionOrder reg).flatten := by
    intro hc
    unfold calculateExecutionOrder at hc
    rcases List.mem_flatten.mp hc with ⟨w, hw, hvw⟩
    rcases List.mem_flatMap.mp hw with ⟨q, -, hwq⟩
    have hvq : v ∈ phaseIds reg q :=
      topologicalSort_mem_ids reg (phaseIds reg q) (phaseIds_nodup reg hnd q) w hwq v hvw
    by_cases hq : q = p
    · rw [hq] at hwq
      exact hnotphase (List.mem_flatten.mpr ⟨w, hwq, hvw⟩)
    · exact phaseIds_disjoint reg hnd q p hq v hvq (hCsub v hv)
  have invF := execute_final_inv reg hnd hpend
  obtain ⟨tf, hftf⟩ := findTask_exists_of_mem_ids (execute (initState reg)).1.tasks v
    (by rw [invF.ids_eq]; exact phaseIds_sub_taskIds reg p v (hCsub v hv))
  have hrest := invF.rest_status v tf hftf hnotflat
  refine ⟨hnotflat, ?_, ?_, ?_⟩
  · intro hc
    obtain ⟨t2, hft2, hs2⟩ := (invF.completed_iff v).mp hc
    rw [hftf] at hft2
    injection hft2 with h2
    rw [h2] at hrest
    rcases hrest with h | h <;> rw [hs2] at h <;> exact TaskStatus.noConfusion h
  · intro hc
    obtain ⟨t2, hft2, hs2⟩ := (invF.failed_iff v).mp hc
    rw [hftf] at hft2
    injection hft2 with h2
    rw [h2] at hrest
    rcases hrest with h | h <;> rw [hs2] at h <;> exact TaskStatus.noConfusion h
  · rw [statusOf, hftf]
    rcases hrest with h | h
    · exact Or.inl (by simp [h])
    · exact Or.inr (by simp [h])

/-- Counterexample for C3: the cyclic registry produces a partial wave
list — the independent task c is scheduled and completes, and the run
returns a summary — instead of failing with an error and producing no
waves. -/
theorem C3_counterexample :
    "a" ∈ depsOf regCycle "b" ∧ "b" ∈ depsOf regCycle "a" ∧
    calculateExecutionOrder regCycle = [["c"]] ∧
    statusOf (execute (initState regCycle)).1 "c" = some TaskStatus.completed ∧
    (execute (initState regCycle)).2 =
      { totalTasks := 3, completed := 1, failed := 0, blocked := 0 } := by
  decide

/-- Witness for C3 at the member a of the cyclic pair of the cyclic
registry. -/
theorem C3_witness :
    "a" ∉ (calculateExecutionOrder regCycle).flatten ∧
    "a" ∉ (execute (initState regCycle)).1.completedTasks ∧
    "a" ∉ (execute (initState regCycle)).1.failedTasks ∧
    (statusOf (execute (initState regCycle)).1 "a" = some TaskStatus.pending ∨
      statusOf (execute (initState regCycle)).1 "a" = some TaskStatus.blocked) :=
  C3_cycle_silently_dropped regCycle (by decide) (by decide)
    ["a", "b"] TaskPhase.foundation (by decide) (by decide) "a" (by decide)



/-- C9: the status machine actually implemented has no Assigned state:
dispatch moves a found task straight to running; across consecutive
wave boundaries every status change follows
pending to running to completed or failed, with blocked reached from
pending; every final status is reachable from pending; and no task
re-enters pending after leaving it. -/
theorem C9_status_machine (reg : List Task)
    (hnd : (taskIds reg).Nodup)
    (hpend : ∀ t ∈ reg, t.status = TaskStatus.pending) :
    (∀ (st : TaskMeshState) (tid : String) (t : Task),
      findTask st.tasks tid = some t →
      statusOf (executeTaskStart st tid) tid = some TaskStatus.running) ∧
    (∀ (k : Nat) (x : String) (t t2 : Task),
      findTask (runUpTo (initState reg) k).tasks x = some t →
      findTask (runUpTo (initState reg) (k + 1)).tasks x = some t2 →
      Relation.ReflTransGen StatusStep t.status t2.status ∧
      (t.status ≠ TaskStatus.pending → t2.status ≠ TaskStatus.pending)) ∧
    (∀ (x : String) (t : Task),
      findTask (execute (initState reg)).1.tasks x = some t →
      Relation.ReflTransGen StatusStep TaskStatus.pending t.status) := by
  refine ⟨?_, ?_, ?_⟩
  · intro st tid t hft
    rw [statusOf, executeTaskStart_found st tid t hft]
    rfl
  · intro k x t t2 h1 h2
    have hstep := runUpTo_statusStep reg hnd hpend k x t t2 h1 h2
    exact ⟨hstep, fun hne => reflTransGen_statusStep_no_pending _ _ hstep hne⟩
  · intro x t hft
    rw [execute_eq_runUpTo reg] at hft
    exact runUpTo_reach_pending reg hnd hpend _ x t hft

/-- Counterexample for C9: the status enumeration of the source has
exactly the six members pending, running, completed, failed, blocked and
cancelled — there is no Assigned member — and dispatch moves a pending
task directly to running with no intermediate marker. -/
theorem C9_counterexample :
    statusOf (initState regBasic) "a" = some TaskStatus.pending ∧
    statusOf (executeTaskStart (initState regBasic) "a") "a" =
      some TaskStatus.running ∧
    (∀ s : TaskStatus, s = TaskStatus.pending ∨ s = TaskStatus.running ∨
      s = TaskStatus.completed ∨ s = TaskStatus.failed ∨ s = TaskStatus.blocked ∨
      s = TaskStatus.cancelled) := by
  refine ⟨by decide, by decide, ?_⟩
  intro s
  cases s <;> simp

/-- Witness for C9 on the chain registry. -/
theorem C9_witness :
    (∀ (st : TaskMeshState) (tid : String) (t : Task),
      findTask st.tasks tid = some t →
      statusOf (executeTaskStart st tid) tid = some TaskStatus.running) ∧
    (∀ (k : Nat) (x : String) (t t2 : Task),
      findTask (runUpTo (initState regChain) k).tasks x = some t →
      findTask (runUpTo (initState regChain) (k + 1)).tasks x = some t2 →
      Relation.ReflTransGen StatusStep t.status t2.status ∧
      (t.status ≠ TaskStatus.pending → t2.status ≠ TaskStatus.pending)) ∧
    (∀ (x : String) (t : Task),
      findTask (execute (initState regChain)).1.tasks x = some t →
      Relation.ReflTransGen StatusStep TaskStatus.pending t.status) :=
  C9_status_machine regChain (by decide) (by decide)

/-- C2: failure blocking as implemented is direct and single-pass: when a
task u of an earlier wave ends the run failed, any still-undone task v of
a later wave that depends directly on u is excluded from that wave's
dispatch list, marked blocked, and ends the run blocked, in neither the
completed nor the failed set.  The cascading, transitive blocking of the
claim is refuted separately. -/
theorem C2_direct_failure_blocking (reg : List Task)
    (hnd : (taskIds reg).Nodup)
    (hpend : ∀ t ∈ reg, t.status = TaskStatus.pending)
    (u v : String) (i j : Nat) (hij : i < j)
    (hu : u ∈ (calculateExecutionOrder reg).getD i [])
    (hv : v ∈ (calculateExecutionOrder reg).getD j [])
    (hdep : u ∈ depsOf reg v)
    (hufail : u ∈ (execute (initState reg)).1.failedTasks) :
    statusOf (execute (initState reg)).1 v = some TaskStatus.blocked ∧
    v ∉ (execute (initState reg)).1.completedTasks ∧
    v ∉ (execute (initState reg)).1.failedTasks ∧
    v ∉ (dispatchDecision (runUpTo (initState reg) j)
          ((calculateExecutionOrder reg).getD j [])).2 := by
  have hjlt : j < (calculateExecutionOrder reg).length :=
    mem_getD_lt_length _ j v hv
  obtain ⟨hWnd, hWsub, hWnew⟩ := calcOrder_wave_facts reg hnd j hjlt
  have invJ := runUpTo_inv reg hnd hpend j
  have invF := execute_final_inv reg hnd hpend
  have hu_done : u ∈ ((calculateExecutionOrder reg).take j).flatten :=
    mem_take_flatten_of_getD _ i j u hu hij
  have hframe := runFold_frame reg hnd ((calculateExecutionOrder reg).drop j)
    (runUpTo (initState reg) j) (((calculateExecutionOrder reg).take j).flatten)
    invJ (calcOrder_take_flatten_nodup reg hnd j)
    (fun w hw => calcOrder_mem_ids reg hnd w ((List.drop_sublist j _).subset hw))
    u hu_done
  obtain ⟨tF, hftF, hsF⟩ := (invF.failed_iff u).mp hufail
  rw [execute_foldl_split reg j, hframe] at hftF
  have huJ : u ∈ (runUpTo (initState reg) j).failedTasks :=
    (invJ.failed_iff u).mpr ⟨tF, hftF, hsF⟩
  have hvids : v ∈ taskIds reg := hWsub v hv
  obtain ⟨tv, hftv⟩ := findTask_exists_of_mem_ids (runUpTo (initState reg) j).tasks v
    (by rw [invJ.ids_eq]; exact hvids)
  obtain ⟨tv0, hfind0, -, -, -, hdeps, -⟩ := invJ.core v tv hftv
  have hdepv : u ∈ tv.dependencies := by
    rw [hdeps, ← depsOf_eq_of_findTask reg v tv0 hfind0]
    exact hdep
  have hFD : hasFailedDep (runUpTo (initState reg) j) v = true := by
    unfold hasFailedDep
    rw [depsOf_eq_of_findTask _ v tv hftv]
    exact List.any_eq_true.mpr ⟨u, hdepv, by simp [huJ]⟩
  obtain ⟨m1, m2, m3, m4, m5, m6, m7, m8, m9⟩ :=
    waveStep_master reg hnd (runUpTo (initState reg) j)
      (((calculateExecutionOrder reg).take j).flatten)
      ((calculateExecutionOrder reg).getD j []) invJ hWnd hWsub hWnew
  have hvnotR : v ∉ ((calculateExecutionOrder reg).getD j []).filter
      (fun w => !(hasFailedDep (runUpTo (initState reg) j) w)) := by
    intro hc
    have hc2 := (List.mem_filter.mp hc).2
    rw [hFD] at hc2
    simp at hc2
  rcases m9 v tv hftv with ⟨hvR, -, -⟩ | ⟨-, hfinv, -, -⟩ | ⟨hnv, -, -⟩
  · exact absurd hvR hvnotR
  · have hstep : runUpTo (initState reg) (j + 1) =
        waveStep (runUpTo (initState reg) j) ((calculateExecutionOrder reg).getD j []) :=
      runUpTo_succ reg j hjlt
    have hv_done1 : v ∈ ((calculateExecutionOrder reg).take (j + 1)).flatten :=
      mem_take_flatten_of_getD _ j (j + 1) v hv (Nat.lt_succ_self j)
    have invJ1 := runUpTo_inv reg hnd hpend (j + 1)
    have hframe1 := runFold_frame reg hnd ((calculateExecutionOrder reg).drop (j + 1))
      (runUpTo (initState reg) (j + 1))
      (((calculateExecutionOrder reg).take (j + 1)).flatten)
      invJ1 (calcOrder_take_flatten_nodup reg hnd (j + 1))
      (fun w hw => calcOrder_mem_ids reg hnd w ((List.drop_sublist (j + 1) _).subset hw))
      v hv_done1
    have hfinal_v : findTask (execute (initState reg)).1.tasks v =
        some (blockTask tv) := by
      rw [execute_foldl_split reg (j + 1), hframe1, hstep, hfinv]
    refine ⟨?_, ?_, ?_, ?_⟩
    · rw [statusOf, hfinal_v]
      rfl
    · intro hc
      obtain ⟨t2, hft2, hs2⟩ := (invF.completed_iff v).mp hc
      rw [hfinal_v] at hft2
      injection hft2 with h2
      rw [← h2] at hs2
      simp [blockTask] at hs2
    · intro hc
      obtain ⟨t2, hft2, hs2⟩ := (invF.failed_iff v).mp hc
      rw [hfinal_v] at hft2
      injection hft2 with h2
      rw [← h2] at hs2
      simp [blockTask] at hs2
    · rw [m8]
      exact hvnotR
  · exact absurd hv hnv

/-- Counterexample for C2: in the chain a before b before c with a
failing, the transitive dependent c is neither blocked nor prevented
from running — it is dispatched and completes — so blocking does not
cascade. -/
theorem C2_counterexample :
    statusOf (execute (initState regChain)).1 "a" = some TaskStatus.failed ∧
    "a" ∈ depsOf regChain "b" ∧ "b" ∈ depsOf regChain "c" ∧
    statusOf (execute (initState regChain)).1 "b" = some TaskStatus.blocked ∧
    statusOf (execute (initState regChain)).1 "c" = some TaskStatus.completed ∧
    "c" ∈ (execute (initState regChain)).1.completedTasks := by
  decide

/-- Witness for C2: the direct dependent b of the failing a in the chain
registry. -/
theorem C2_witness :
    statusOf (execute (initState regChain)).1 "b" = some TaskStatus.blocked ∧
    "b" ∉ (execute (initState regChain)).1.completedTasks ∧
    "b" ∉ (execute (initState regChain)).1.failedTasks ∧
    "b" ∉ (dispatchDecision (runUpTo (initState regChain) 1)
          ((calculateExecutionOrder regChain).getD 1 [])).2 :=
  C2_direct_failure_blocking regChain (by decide) (by decide)
    "a" "b" 0 1 (by decide) (by decide) (by decide) (by decide) (by decide)


end TaskMesh
